import Mathlib

/-!
Verification of the dwce_time_tracker utility scripts against their specification.

Each namespace below is a shallow embedding of one script:

* `FindDup`      — scripts/find_duplicate_files.py (`scan_path`, `find_duplicates`)
* `DelMarked`    — scripts/delete_marked_duplicates.py (`is_marked`, row selection)
* `CopyFiles`    — code-workspace/copy_files.py (`should_copy_file`, recursive copy)
* `SyncProjects` — scheduled_tasks/sync_projects.py (`sync_to_supabase`, upsert mode)
* `UpdatePubspec`— update.py (`get_package_list_from_pubspec`, `update_pubspec_file`)
* `DeepSearch`   — code-workspace/deep_search_chat.py (`deep_search_workspace_db`)
* `Payroll`      — code-workspace/import_payroll_bland_david.py (`_dup_key`, main loop)

Python `str` values are modelled as Lean `String`/`List Char`; machine I/O (remote
database calls, file copies) is modelled by explicit state passing, with call
outcomes supplied by oracle functions where a claim depends on failures.
-/

/-- Characters removed by Python `str.strip()` (whitespace). -/
def isWS (c : Char) : Bool := c.isWhitespace

/-- Python `str.strip()` on a character list. -/
def trimL (s : List Char) : List Char :=
  ((s.dropWhile isWS).reverse.dropWhile isWS).reverse

/-- Python `str.lower()` on a character list (sources only use ASCII). -/
def lowerL (s : List Char) : List Char := s.map Char.toLower

/-- Python `str.strip()`. -/
def pyStrip (s : String) : String := ⟨trimL s.data⟩

/-- Python `str.lower()`. -/
def pyLower (s : String) : String := ⟨lowerL s.data⟩

namespace FindDup

/-- A regular file of the scanned filesystem: its absolute path (as a list of
components) paired with the result of `file_hash` on it.  `none` models a file
`file_hash` cannot read (OSError/PermissionError), for which it returns `None`. -/
abbrev FileEntry := List String × Option String

/-- The filesystem visible to `os.walk`: all regular files with their hash results. -/
abbrev FS := List FileEntry

/-- `scan_path root`: the recursive `os.walk` from a root directory yields exactly
the regular files lying strictly below the root path; a missing root yields
nothing.  The size and extension filters are elided: the claims quantify over
whichever set of files is scanned. -/
def scan_path (fs : FS) (root : List String) : List FileEntry :=
  fs.filter (fun f => root.isPrefixOf f.1 && f.1 != root)

/-- All files scanned in one run: the roots are scanned in order, concatenating
their walks (the two nested `for` loops of `find_duplicates`). -/
def scannedFiles (fs : FS) (roots : List (List String)) : List FileEntry :=
  (roots.map (scan_path fs)).flatten

/-- One step of building `hash_to_files`: `if h not in hash_to_files:
hash_to_files[h] = []` then `hash_to_files[h].append(...)`.  The dict is modelled
as an association list in key insertion order (Python dicts preserve it). -/
def addFile (gs : List (String × List (List String))) (h : String) (p : List String) :
    List (String × List (List String)) :=
  if gs.any (fun g => g.1 == h) then
    gs.map (fun g => if g.1 == h then (g.1, g.2 ++ [p]) else g)
  else
    gs ++ [(h, [p])]

/-- The `hash_to_files` dict after the scan loop: files whose hash is `None` are
skipped (`if h is None: continue`), the rest are appended under their hash. -/
def buildGroups (l : List FileEntry) : List (String × List (List String)) :=
  l.foldl (fun gs f =>
    match f.2 with
    | none => gs
    | some h => addFile gs h f.1) []

/-- `find_duplicates`: scan all roots, group by hash, and keep only the groups
with more than one file. -/
def find_duplicates (fs : FS) (roots : List (List String)) :
    List (String × List (List String)) :=
  (buildGroups (scannedFiles fs roots)).filter (fun g => g.2.length > 1)

/-- The group list held under a hash key (empty when the key is absent). -/
def groupOf (gs : List (String × List (List String))) (h : String) : List (List String) :=
  match gs.find? (fun g => g.1 == h) with
  | some g => g.2
  | none => []

/-- The paths of the scanned files whose hash computed to `some h`. -/
def pathsWithHash (l : List FileEntry) (h : String) : List (List String) :=
  (l.filter (fun f => f.2 == some h)).map (·.1)

theorem addFile_groupOf (gs : List (String × List (List String))) (h : String)
    (p : List String) (h' : String) :
    groupOf (addFile gs h p) h' =
      if h' = h then groupOf gs h ++ [p] else groupOf gs h' := by
  unfold addFile groupOf
  by_cases hmem : gs.any (fun g => g.1 == h)
  · simp only [hmem, if_true]
    have hpred : ((fun g : String × List (List String) => g.1 == h') ∘
        (fun g => if (g.1 == h) = true then (g.1, g.2 ++ [p]) else g)) =
        (fun g : String × List (List String) => g.1 == h') := by
      funext g
      by_cases hg : (g.1 == h) = true
      · simp [Function.comp, hg]
      · simp [Function.comp, hg]
    rw [List.find?_map, hpred]
    by_cases hh : h' = h
    · subst hh
      rcases hg : gs.find? (fun g => g.1 == h') with _ | g
      · rw [List.find?_eq_none] at hg
        rw [List.any_eq_true] at hmem
        obtain ⟨g, hgmem, hgkey⟩ := hmem
        exact absurd hgkey (hg g hgmem)
      · have hkey : g.1 = h' := by simpa using List.find?_some hg
        rw [hg]
        simp [hkey]
    · simp only [if_neg hh]
      rcases hg : gs.find? (fun g => g.1 == h') with _ | g
      · rw [hg]
        rfl
      · have hkey : g.1 = h' := by simpa using List.find?_some hg
        have hne : ¬ g.1 = h := fun hc => hh (hkey ▸ hc)
        rw [hg]
        simp [hne]
  · have hmem2 : (gs.any fun g => g.1 == h) = false := by
      cases hga : gs.any (fun g => g.1 == h)
      · rfl
      · exact absurd hga hmem
    simp only [hmem2, Bool.false_eq_true, if_false]
    rw [List.find?_append]
    by_cases hh : h' = h
    · subst hh
      have hnone : gs.find? (fun g => g.1 == h') = none := by
        rw [List.find?_eq_none]
        intro g hgmem
        exact List.any_eq_false.mp hmem2 g hgmem
      rw [hnone]
      simp [List.find?]
    · rcases hg : gs.find? (fun g => g.1 == h') with _ | g
      · have hne : ¬ (h == h') = true := by
          intro hc
          exact hh (eq_of_beq hc).symm
        rw [hg]
        simp [List.find?, hne, hh]
      · rw [hg]
        simp [hh]

theorem buildGroups_loop (l : List FileEntry)
    (gs : List (String × List (List String))) (h : String) :
    groupOf (l.foldl (fun gs f =>
      match f.2 with
      | none => gs
      | some hf => addFile gs hf f.1) gs) h = groupOf gs h ++ pathsWithHash l h := by
  induction l generalizing gs with
  | nil => simp [pathsWithHash]
  | cons f l ih =>
    rcases f with ⟨p, _ | hf⟩
    · simp only [List.foldl_cons]
      rw [ih]
      simp [pathsWithHash]
    · simp only [List.foldl_cons]
      rw [ih, addFile_groupOf]
      by_cases hh : h = hf
      · subst hh
        simp [pathsWithHash, List.filter_cons]
      · have : ¬ ((some hf : Option String) == some h) = true := by
          simp only [beq_iff_eq, Option.some.injEq]
          exact fun hc => hh hc.symm
        simp only [if_neg hh]
        simp [pathsWithHash, List.filter_cons, this]

theorem buildGroups_groupOf (l : List FileEntry) (h : String) :
    groupOf (buildGroups l) h = pathsWithHash l h := by
  unfold buildGroups
  rw [buildGroups_loop]
  simp [groupOf]

/-- The hash keys of a group list. -/
def keysOf (gs : List (String × List (List String))) : List String := gs.map (·.1)

theorem addFile_keys (gs : List (String × List (List String))) (h : String)
    (p : List String) :
    keysOf (addFile gs h p) = keysOf gs ∨
      (keysOf (addFile gs h p) = keysOf gs ++ [h] ∧ h ∉ keysOf gs) := by
  unfold addFile keysOf
  by_cases hmem : gs.any (fun g => g.1 == h)
  · left
    simp only [hmem, if_true, List.map_map]
    apply List.map_congr_left
    intro g _
    by_cases hg : (g.1 == h) = true
    · simp [Function.comp, hg]
    · simp [Function.comp, hg]
  · right
    have hmem2 : (gs.any fun g => g.1 == h) = false := by
      cases hga : gs.any (fun g => g.1 == h)
      · rfl
      · exact absurd hga hmem
    constructor
    · simp [hmem2]
    · intro hc
      obtain ⟨g, hgmem, hgkey⟩ := List.mem_map.mp hc
      exact hmem (List.any_eq_true.mpr ⟨g, hgmem, by simp [hgkey]⟩)

theorem addFile_keys_nodup (gs : List (String × List (List String))) (h : String)
    (p : List String) (hnd : (keysOf gs).Nodup) : (keysOf (addFile gs h p)).Nodup := by
  rcases addFile_keys gs h p with heq | ⟨heq, hnmem⟩
  · rw [heq]; exact hnd
  · rw [heq]
    rw [List.nodup_append]
    refine ⟨hnd, by simp, ?_⟩
    intro a ha hb
    rw [List.mem_singleton] at hb
    subst hb
    exact hnmem ha

theorem buildGroups_keys_nodup (l : List FileEntry) : (keysOf (buildGroups l)).Nodup := by
  unfold buildGroups
  have : ∀ gs : List (String × List (List String)), (keysOf gs).Nodup →
      (keysOf (l.foldl (fun gs f =>
        match f.2 with
        | none => gs
        | some hf => addFile gs hf f.1) gs)).Nodup := by
    induction l with
    | nil => intro gs hgs; exact hgs
    | cons f l ih =>
      intro gs hgs
      rcases f with ⟨p, _ | hf⟩
      · exact ih gs hgs
      · exact ih _ (addFile_keys_nodup gs hf p hgs)
  exact this [] (by simp [keysOf])

theorem mem_groupOf_of_mem {gs : List (String × List (List String))}
    {g : String × List (List String)} (hnd : (keysOf gs).Nodup) (hg : g ∈ gs) :
    groupOf gs g.1 = g.2 := by
  unfold groupOf
  induction gs with
  | nil => cases hg
  | cons a gs ih =>
    rcases List.mem_cons.mp hg with heq | hmem
    · subst heq
      simp [List.find?]
    · have hne : ¬ (a.1 == g.1) = true := by
        intro hc
        have : g.1 ∈ keysOf gs := List.mem_map.mpr ⟨g, hmem, rfl⟩
        rw [keysOf, List.map_cons, List.nodup_cons] at hnd
        exact hnd.1 (eq_of_beq hc ▸ this)
      rw [keysOf, List.map_cons, List.nodup_cons] at hnd
      simp only [List.find?, hne]
      exact ih hnd.2 hmem

theorem pathsWithHash_eq (l : List FileEntry) (h : String) :
    pathsWithHash l h = (l.filter (fun f => f.2 == some h)).map (·.1) := rfl

theorem pathsWithHash_sublist (l : List FileEntry) (h : String) :
    (pathsWithHash l h).Sublist (l.map (·.1)) := by
  rw [pathsWithHash_eq]
  exact (List.filter_sublist l).map _

theorem mem_pathsWithHash {l : List FileEntry} {h : String} {p : List String} :
    p ∈ pathsWithHash l h ↔ (p, some h) ∈ l := by
  rw [pathsWithHash_eq]
  constructor
  · intro hp
    obtain ⟨f, hf, hfp⟩ := List.mem_map.mp hp
    have := List.mem_filter.mp hf
    have h2 : f.2 = some h := by simpa using this.2
    have hfe : f = (p, some h) := by
      rcases f with ⟨a, b⟩
      simp only at hfp h2
      rw [hfp, h2]
    rw [← hfe]
    exact (List.mem_filter.mp hf).1
  · intro hp
    exact List.mem_map.mpr ⟨(p, some h), List.mem_filter.mpr ⟨hp, by simp⟩, rfl⟩

/-- Lists with no duplicated first components determine their second components. -/
theorem nodup_fst_inj {l : List FileEntry} (hnd : (l.map (·.1)).Nodup)
    {p : List String} {a b : Option String} (ha : (p, a) ∈ l) (hb : (p, b) ∈ l) :
    a = b := by
  induction l with
  | nil => cases ha
  | cons f l ih =>
    rw [List.map_cons, List.nodup_cons] at hnd
    rcases List.mem_cons.mp ha with hea | hma
    · rcases List.mem_cons.mp hb with heb | hmb
      · rw [← hea] at heb
        exact (Prod.mk.injEq _ _ _ _ ▸ heb).2.symm
      · exfalso
        exact hnd.1 (hea ▸ List.mem_map.mpr ⟨(p, b), hmb, rfl⟩)
    · rcases List.mem_cons.mp hb with heb | hmb
      · exfalso
        exact hnd.1 (heb ▸ List.mem_map.mpr ⟨(p, a), hma, rfl⟩)
      · exact ih hnd.2 hma hmb

/-- A nodup list all of whose members equal `p` has at most one element. -/
theorem nodup_all_eq_length_le {l : List (List String)} (hnd : l.Nodup)
    (hall : ∀ x ∈ l, x = p) : l.length ≤ 1 := by
  match l with
  | [] => simp
  | [a] => simp
  | a :: b :: t =>
    exfalso
    rw [List.nodup_cons] at hnd
    have ha := hall a (by simp)
    have hb := hall b (by simp)
    exact hnd.1 (by rw [ha, hb]; simp)

/-- Concrete filesystem for the C1 counterexample: one file `a/f` with hash `h1`. -/
def exFS : FS := [(["a", "f"], some "h1")]

/-- Nested root paths: the root directory and its subdirectory `a` both contain `a/f`. -/
def exRoots : List (List String) := [[], ["a"]]

/-- C1 counterexample: `find_duplicates` run over the nested set of root paths
`{"", "a"}` scans the single file `a/f` twice (once per root), so the file's
unique hash `h1` gets a group of size two, which is returned.  The returned
group is not a set of more than one file (it lists one distinct file), and a
scanned file whose content hash is unique among the scanned files appears in a
group - contradicting claim C1 as stated. -/
theorem C1_counterexample :
    find_duplicates exFS exRoots = [("h1", [["a", "f"], ["a", "f"]])] ∧
    (∀ f ∈ scannedFiles exFS exRoots, f = (["a", "f"], some "h1")) ∧
    ¬ (∀ g ∈ find_duplicates exFS exRoots, 2 ≤ g.2.dedup.length) := by decide

/-- C1 (amended): provided no file is scanned more than once (the walks of the
root paths are pairwise disjoint), every group returned by `find_duplicates`
lists at least two distinct files, each listed file's content hash equals the
group's key, and no scanned file whose content hash is unique among the scanned
files appears in any group. -/
theorem C1_find_duplicates_amended (fs : FS) (roots : List (List String))
    (hnd : ((scannedFiles fs roots).map (·.1)).Nodup) :
    (∀ g ∈ find_duplicates fs roots,
        2 ≤ g.2.length ∧ g.2.Nodup ∧
        ∀ p ∈ g.2, (p, some g.1) ∈ scannedFiles fs roots) ∧
    (∀ p h, (p, some h) ∈ scannedFiles fs roots →
      (∀ q oh, (q, oh) ∈ scannedFiles fs roots → oh = some h → q = p) →
      ∀ g ∈ find_duplicates fs roots, p ∉ g.2) := by
  have hchar : ∀ g ∈ find_duplicates fs roots,
      g.2 = pathsWithHash (scannedFiles fs roots) g.1 ∧ 1 < g.2.length := by
    intro g hg
    unfold find_duplicates at hg
    have hmem := (List.mem_filter.mp hg).1
    have hlen := (List.mem_filter.mp hg).2
    refine ⟨?_, by simpa using of_decide_eq_true hlen⟩
    rw [← buildGroups_groupOf (scannedFiles fs roots) g.1]
    exact (mem_groupOf_of_mem (buildGroups_keys_nodup _) hmem).symm
  constructor
  · intro g hg
    obtain ⟨hps, hlen⟩ := hchar g hg
    refine ⟨by omega, ?_, ?_⟩
    · rw [hps]
      exact ((pathsWithHash_sublist _ _).nodup) hnd
    · intro p hp
      rw [hps] at hp
      exact mem_pathsWithHash.mp hp
  · intro p h hmemp huniq g hg hpin
    obtain ⟨hps, hlen⟩ := hchar g hg
    have hpmem : (p, some g.1) ∈ scannedFiles fs roots := by
      rw [hps] at hpin
      exact mem_pathsWithHash.mp hpin
    by_cases hgh : g.1 = h
    · subst hgh
      have hall : ∀ x ∈ g.2, x = p := by
        intro x hx
        rw [hps] at hx
        exact huniq x (some g.1) (mem_pathsWithHash.mp hx) rfl
      have hnd2 : g.2.Nodup := by
        rw [hps]
        exact ((pathsWithHash_sublist _ _).nodup) hnd
      have := nodup_all_eq_length_le hnd2 hall
      omega
    · have := nodup_fst_inj hnd hpmem hmemp
      simp only [Option.some.injEq] at this
      exact hgh this

/-- Concrete disjoint-scan filesystem for the C1 witness. -/
def exFS2 : FS := [(["a"], some "x"), (["b"], some "x"), (["c"], some "y")]

/-- Witness for `C1_find_duplicates_amended` at a concrete input. -/
theorem C1_witness :
    2 ≤ [["a"], ["b"]].length ∧ ((["a"] : List String), some "x") ∈ scannedFiles exFS2 [[]] := by
  have h := (C1_find_duplicates_amended exFS2 [[]] (by decide)).1
    ("x", [["a"], ["b"]]) (by decide)
  exact ⟨h.1, h.2.2 ["a"] (by decide)⟩

end FindDup

namespace DelMarked

/-- Values that mean "mark for deletion" (`MARK_VALUES`). -/
def MARK_VALUES : List String := ["y", "yes", "1", "true", "x", "delete"]

/-- `is_marked`: `str(value).strip().lower() in MARK_VALUES`.  CSV cells are always
strings, so the `value is None` guard of the source cannot fire here. -/
def is_marked (value : String) : Bool := MARK_VALUES.contains (pyLower (pyStrip value))

/-- A parsed CSV file: the header row and the remaining rows. -/
structure CsvTable where
  header : List String
  rows : List (List String)

/-- `header.index("full_path")` / `header.index("mark_for_deletion")`; `none` models
the `ValueError` path on which the script exits without deleting anything. -/
def findCols (t : CsvTable) : Option (Nat × Nat) :=
  match t.header.indexOf? "full_path", t.header.indexOf? "mark_for_deletion" with
  | some pidx, some midx => some (pidx, midx)
  | _, _ => none

/-- The selection loop: rows too short to reach both columns are skipped
(`len(row) <= max(path_idx, mark_idx)`), the path is stripped and empty paths
are skipped, and `is_marked` decides membership in `to_delete`. -/
def to_delete (t : CsvTable) (pidx midx : Nat) : List String :=
  t.rows.filterMap (fun row =>
    if row.length ≤ max pidx midx then none
    else if pyStrip (row.getD pidx "") == "" then none
    else if is_marked (row.getD midx "") then some (pyStrip (row.getD pidx "")) else none)

/-- The whole selection phase of `main`. -/
def runSelection (t : CsvTable) : Option (List String) :=
  (findCols t).map (fun c => to_delete t c.1 c.2)

/-- The deletion loop: only paths from `to_delete` that still denote a regular file
are unlinked; nothing outside `to_delete` is ever deleted. -/
def deletedFiles (toDel : List String) (isFile : String → Bool) : List String :=
  toDel.filter isFile

/-- C10: a CSV row's file is selected for deletion iff the row reaches both the
`full_path` and `mark_for_deletion` columns, its stripped `full_path` is
non-empty, and its `mark_for_deletion` value, stripped and lowercased, is one
of `MARK_VALUES`; every deleted file is the file of such a selected row. -/
theorem C10_is_marked_selection (t : CsvTable) (pidx midx : Nat)
    (isFile : String → Bool) (hcols : findCols t = some (pidx, midx)) :
    runSelection t = some (to_delete t pidx midx) ∧
    (∀ p, p ∈ to_delete t pidx midx ↔
      ∃ row ∈ t.rows, max pidx midx < row.length ∧
        pyStrip (row.getD pidx "") = p ∧ p ≠ "" ∧
        is_marked (row.getD midx "") = true) ∧
    (∀ p ∈ deletedFiles (to_delete t pidx midx) isFile, p ∈ to_delete t pidx midx) := by
  refine ⟨by simp [runSelection, hcols], ?_, ?_⟩
  · intro p
    rw [to_delete, List.mem_filterMap]
    constructor
    · rintro ⟨row, hrow, hf⟩
      refine ⟨row, hrow, ?_⟩
      by_cases h1 : row.length ≤ max pidx midx
      · rw [if_pos h1] at hf
        cases hf
      · rw [if_neg h1] at hf
        by_cases h2 : (pyStrip (row.getD pidx "") == "") = true
        · rw [if_pos h2] at hf
          cases hf
        · rw [if_neg h2] at hf
          by_cases h3 : is_marked (row.getD midx "") = true
          · rw [if_pos h3] at hf
            injection hf with hf
            refine ⟨by omega, hf, ?_, h3⟩
            rw [← hf]
            intro hc
            apply h2
            rw [hc]
            rfl
          · rw [if_neg h3] at hf
            cases hf
    · rintro ⟨row, hrow, hlen, hpath, hne, hmark⟩
      refine ⟨row, hrow, ?_⟩
      have h1 : ¬ row.length ≤ max pidx midx := by omega
      have h2 : ¬ (pyStrip (row.getD pidx "") == "") = true := by
        rw [hpath]
        intro hc
        exact hne (eq_of_beq hc)
      rw [if_neg h1, if_neg h2, if_pos hmark, hpath]
  · intro p hp
    exact (List.mem_filter.mp hp).1

/-- Concrete CSV table for the C10 witness. -/
def exT : CsvTable :=
  ⟨["file_name", "full_path", "file_size", "date_modified", "file_hash",
    "duplicate_group_id", "mark_for_deletion"],
   [["a.txt", "/tmp/a.txt", "1", "d", "h", "1", "Y"],
    ["b.txt", "/tmp/b.txt", "1", "d", "h", "1", ""]]⟩

/-- Witness for `C10_is_marked_selection` at a concrete table. -/
theorem C10_witness :
    runSelection exT = some (to_delete exT 1 6) ∧ "/tmp/a.txt" ∈ to_delete exT 1 6 := by
  have h := C10_is_marked_selection exT 1 6 (fun _ => true) (by decide)
  exact ⟨h.1, (h.2.1 "/tmp/a.txt").mpr (by decide)⟩

end DelMarked

namespace CopyFiles

/-- `DATE_CUTOFF = datetime(2026, 1, 1)` as a POSIX timestamp (the exact value is
immaterial: `datetime.fromtimestamp` is strictly monotone, so the comparison of
the converted datetimes equals the comparison of raw timestamps). -/
def DATE_CUTOFF : Int := 1767225600

/-- `should_copy_file`: `True` iff the file's modification time could be read and
is strictly after the cutoff; an unreadable time (`OSError`/`ValueError`) is
modelled as `none` and yields `False` ("skip the file to be safe"). -/
def should_copy_file (mtime : Option Int) : Bool :=
  match mtime with
  | some t => DATE_CUTOFF < t
  | none => false

/-- A source directory tree: regular files carry the result of reading their
modification time. -/
inductive SrcTree where
  | file (name : String) (mtime : Option Int)
  | dir (name : String) (children : List SrcTree)

/-- `copy_files_recursive`, observed as the list of relative destination paths the
script copies to (`dest_item = destination / item.name`, recursively, so the
destination mirrors the source structure).  `shutil.copy2` is modelled as
succeeding, and the empty-folder cleanup removes only directories, never files. -/
def copy_files_recursive : List SrcTree → List (List String)
  | [] => []
  | .file n mt :: rest =>
      (if should_copy_file mt then [[n]] else []) ++ copy_files_recursive rest
  | .dir n cs :: rest =>
      (copy_files_recursive cs).map (n :: ·) ++ copy_files_recursive rest

/-- All regular files of a source tree, with relative path and mtime. -/
def filesOf : List SrcTree → List (List String × Option Int)
  | [] => []
  | .file n mt :: rest => ([n], mt) :: filesOf rest
  | .dir n cs :: rest => (filesOf cs).map (fun f => (n :: f.1, f.2)) ++ filesOf rest

theorem copy_eq_filter : ∀ ts : List SrcTree,
    copy_files_recursive ts =
      ((filesOf ts).filter (fun f => should_copy_file f.2)).map (·.1)
  | [] => by
    rw [copy_files_recursive, filesOf]
    rfl
  | .file n mt :: rest => by
    rw [copy_files_recursive, filesOf, copy_eq_filter rest, List.filter_cons]
    by_cases h : should_copy_file mt = true
    · simp [h]
    · simp [h]
  | .dir n cs :: rest => by
    rw [copy_files_recursive, filesOf, copy_eq_filter rest, copy_eq_filter cs,
      List.filter_append, List.map_append, List.filter_map, List.map_map, List.map_map]
    have hpf : ((fun f : List String × Option Int => should_copy_file f.2) ∘
        (fun f : List String × Option Int => (n :: f.1, f.2))) =
        (fun f : List String × Option Int => should_copy_file f.2) := by
      funext g
      rfl
    rw [hpf]
    rfl

/-- C5: a regular file of the source tree is copied (to its mirrored destination
path) iff its modification time was read and is strictly after the cutoff
`datetime(2026, 1, 1)`.  In particular a file whose modification time cannot be
read (mtime `none`, no entry with a readable time sharing its path) is not
copied, since no witness `t` exists for it. -/
theorem C5_copy_files_cutoff (ts : List SrcTree) (p : List String) :
    p ∈ copy_files_recursive ts ↔
      ∃ t : Int, (p, some t) ∈ filesOf ts ∧ DATE_CUTOFF < t := by
  rw [copy_eq_filter, List.mem_map]
  constructor
  · rintro ⟨f, hf, hfp⟩
    obtain ⟨hmem, hpred⟩ := List.mem_filter.mp hf
    rcases f with ⟨q, mt⟩
    rcases mt with _ | t
    · exact absurd hpred (by simp [should_copy_file])
    · have hqp : q = p := hfp
      subst hqp
      refine ⟨t, hmem, ?_⟩
      simpa [should_copy_file] using hpred
  · rintro ⟨t, hmem, ht⟩
    refine ⟨(p, some t), List.mem_filter.mpr ⟨hmem, ?_⟩, rfl⟩
    simp [should_copy_file, ht]

end CopyFiles

namespace SyncProjects

/-- A mapped project: the Supabase column/value pairs produced by `map_fields`. -/
abbrev Proj := List (String × String)

/-- A row of the remote `projects` table: its `id` and its columns. -/
structure RemoteRow where
  rid : Nat
  cols : List (String × String)
deriving DecidableEq

/-- The value a list of columns holds under a column name. -/
def lookupCol (cols : List (String × String)) (k : String) : Option String :=
  (cols.find? (fun c => c.1 == k)).map (·.2)

/-- The value a remote row holds in a column. -/
def colVal (r : RemoteRow) (k : String) : Option String := lookupCol r.cols k

/-- Setting one column of a row (the effect of an `update` payload entry). -/
def setCol (cols : List (String × String)) (k v : String) : List (String × String) :=
  if cols.any (fun c => c.1 == k) then
    cols.map (fun c => if c.1 == k then (k, v) else c)
  else cols ++ [(k, v)]

/-- PostgREST `update(payload)`: every column of the payload is written. -/
def applyUpdate (cols upd : List (String × String)) : List (String × String) :=
  upd.foldl (fun acc kv => setCol acc kv.1 kv.2) cols

/-- `project.get("project_number", "")`. -/
def getPn (p : Proj) : String :=
  ((p.find? (fun kv => kv.1 == "project_number")).map (·.2)).getD ""

/-- `update_data = {k: v for k, v in project.items() if k != "project_number"}`. -/
def update_data (p : Proj) : List (String × String) :=
  p.filter (fun kv => kv.1 != "project_number")

/-- One iteration of the upsert loop: select the rows whose `project_number`
equals the project's, update the first match by its `id`, else insert the
mapped project as a new row (`fresh` is its new id). -/
def upsertStep (t : List RemoteRow) (fresh : Nat) (p : Proj) : List RemoteRow :=
  if getPn p == "" then t
  else
    match (t.filter (fun r => colVal r "project_number" == some (getPn p))).head? with
    | some r0 =>
        t.map (fun r => if r.rid == r0.rid then
          { r with cols := applyUpdate r.cols (update_data p) } else r)
    | none => t ++ [⟨fresh, p⟩]

/-- `sync_to_supabase(projects, mode="upsert")`: the mapped projects are processed
in order (the batching in groups of 100 visits the same projects in the same
order, so it folds identically); `fresh` numbers newly inserted rows. -/
def sync_to_supabase (t : List RemoteRow) (ps : List Proj) (fresh : Nat) : List RemoteRow :=
  match ps with
  | [] => t
  | p :: rest => sync_to_supabase (upsertStep t fresh p) rest (fresh + 1)

theorem sync_append (l1 : List Proj) (t : List RemoteRow) (fresh : Nat) (l2 : List Proj) :
    sync_to_supabase t (l1 ++ l2) fresh =
      sync_to_supabase (sync_to_supabase t l1 fresh) l2 (fresh + l1.length) := by
  induction l1 generalizing t fresh with
  | nil => simp [sync_to_supabase]
  | cons p l1 ih =>
    rw [List.cons_append, sync_to_supabase, sync_to_supabase, ih]
    simp only [List.length_cons]
    ring_nf

theorem upsertStep_found (t : List RemoteRow) (fresh : Nat) (p : Proj)
    (hpn : getPn p ≠ "")
    (hex : ∃ r ∈ t, colVal r "project_number" = some (getPn p)) :
    ∃ r0 ∈ t, colVal r0 "project_number" = some (getPn p) ∧
      upsertStep t fresh p =
        t.map (fun r => if r.rid == r0.rid then
          { r with cols := applyUpdate r.cols (update_data p) } else r) ∧
      (upsertStep t fresh p).length = t.length := by
  have hpnb : (getPn p == "") = false := by
    cases hb : getPn p == ""
    · rfl
    · exact absurd (eq_of_beq hb) hpn
  rcases hfl : t.filter (fun r => colVal r "project_number" == some (getPn p)) with _ | ⟨r0, rest⟩
  · exfalso
    obtain ⟨r, hr, hrv⟩ := hex
    have : r ∈ t.filter (fun r => colVal r "project_number" == some (getPn p)) :=
      List.mem_filter.mpr ⟨hr, by simp [hrv]⟩
    rw [hfl] at this
    cases this
  · have hr0f : r0 ∈ t.filter (fun r => colVal r "project_number" == some (getPn p)) := by
      rw [hfl]
      exact List.mem_cons_self _ _
    refine ⟨r0, List.mem_of_mem_filter hr0f, ?_, ?_, ?_⟩
    · have := List.of_mem_filter hr0f
      simpa using this
    · rw [upsertStep, hpnb]
      simp only [Bool.false_eq_true, if_false, hfl, List.head?_cons]
    · rw [upsertStep, hpnb]
      simp only [Bool.false_eq_true, if_false, hfl, List.head?_cons]
      exact List.length_map _ _

theorem upsertStep_notfound (t : List RemoteRow) (fresh : Nat) (p : Proj)
    (hpn : getPn p ≠ "")
    (hnone : ∀ r ∈ t, colVal r "project_number" ≠ some (getPn p)) :
    upsertStep t fresh p = t ++ [⟨fresh, p⟩] := by
  have hpnb : (getPn p == "") = false := by
    cases hb : getPn p == ""
    · rfl
    · exact absurd (eq_of_beq hb) hpn
  have hfl : t.filter (fun r => colVal r "project_number" == some (getPn p)) = [] := by
    rw [List.filter_eq_nil_iff]
    intro r hr
    simpa using hnone r hr
  rw [upsertStep, hpnb]
  simp only [Bool.false_eq_true, if_false, hfl, List.head?_nil]

/-- C2: each mapped project with a non-empty `project_number` is processed, at its
turn in the run, by update-if-exists-else-insert keyed by `project_number`:
against the table state left by the projects before it, the first remote row
with the same `project_number` is updated in place (no row added) when one
exists, and otherwise a new row with the mapped fields is inserted. -/
theorem C2_sync_upsert (t : List RemoteRow) (ps1 ps2 : List Proj) (p : Proj)
    (fresh : Nat) (hpn : getPn p ≠ "") :
    sync_to_supabase t (ps1 ++ p :: ps2) fresh =
      sync_to_supabase
        (upsertStep (sync_to_supabase t ps1 fresh) (fresh + ps1.length) p)
        ps2 (fresh + ps1.length + 1) ∧
    (∀ t' f',
      ((∃ r ∈ t', colVal r "project_number" = some (getPn p)) →
        ∃ r0 ∈ t', colVal r0 "project_number" = some (getPn p) ∧
          upsertStep t' f' p =
            t'.map (fun r => if r.rid == r0.rid then
              { r with cols := applyUpdate r.cols (update_data p) } else r) ∧
          (upsertStep t' f' p).length = t'.length) ∧
      ((∀ r ∈ t', colVal r "project_number" ≠ some (getPn p)) →
        upsertStep t' f' p = t' ++ [⟨f', p⟩])) := by
  constructor
  · rw [sync_append, sync_to_supabase]
  · intro t' f'
    exact ⟨upsertStep_found t' f' p hpn, upsertStep_notfound t' f' p hpn⟩

/-- Concrete mapped project for the C2 witness. -/
def pEx : Proj := [("project_number", "A6-0001"), ("project_name", "New name")]

/-- Witness for `C2_sync_upsert`: on an empty table the project is inserted. -/
theorem C2_witness : upsertStep [] 7 pEx = [⟨7, pEx⟩] :=
  ((C2_sync_upsert [] [] [] pEx 0 (by decide)).2 [] 7).2 (by intro r hr; cases hr)

theorem setCol_lookup_ne (cols : List (String × String)) (k' v k : String)
    (hne : k' ≠ k) : lookupCol (setCol cols k' v) k = lookupCol cols k := by
  unfold setCol lookupCol
  by_cases hmem : cols.any (fun c => c.1 == k')
  · simp only [hmem, if_true]
    rw [List.find?_map]
    have hpred : ((fun c : String × String => c.1 == k) ∘
        (fun c => if (c.1 == k') = true then (k', v) else c)) =
        (fun c : String × String => c.1 == k) := by
      funext c
      by_cases hc : (c.1 == k') = true
      · have : c.1 = k' := eq_of_beq hc
        simp [Function.comp, hc, this]
      · simp [Function.comp, hc]
    rw [hpred]
    rcases hf : cols.find? (fun c => c.1 == k) with _ | c
    · rw [hf]
      rfl
    · have hkey : c.1 = k := by simpa using List.find?_some hf
      have hcne : ¬ c.1 = k' := fun hc => hne (hc.symm.trans hkey)
      rw [hf]
      simp [hcne]
  · have hmem2 : (cols.any fun c => c.1 == k') = false := by
      cases hga : cols.any (fun c => c.1 == k')
      · rfl
      · exact absurd hga hmem
    simp only [hmem2, Bool.false_eq_true, if_false]
    rw [List.find?_append]
    have hone : List.find? (fun c : String × String => c.1 == k) [(k', v)] = none := by
      have : ¬ (k' == k) = true := by
        intro hc
        exact hne (eq_of_beq hc)
      simp [List.find?, this]
    rw [hone, Option.or_none]

theorem applyUpdate_lookup_ne (upd : List (String × String)) (cols : List (String × String))
    (k : String) (hk : ∀ kv ∈ upd, kv.1 ≠ k) :
    lookupCol (applyUpdate cols upd) k = lookupCol cols k := by
  induction upd generalizing cols with
  | nil => rfl
  | cons kv upd ih =>
    rw [applyUpdate, List.foldl_cons]
    have := ih (setCol cols kv.1 kv.2) (fun x hx => hk x (List.mem_cons_of_mem _ hx))
    rw [applyUpdate] at this
    rw [this]
    exact setCol_lookup_ne cols kv.1 kv.2 k (hk kv (List.mem_cons_self _ _))

/-- C8: in the update branch of the upsert, the payload is exactly the mapped
fields with `project_number` removed, the table keeps its rows (same length,
same ids), and no row's `project_number` column is changed by the update - in
particular the matched row keeps its stable identifier. -/
theorem C8_update_data_frame (t : List RemoteRow) (fresh : Nat) (p : Proj)
    (hpn : getPn p ≠ "")
    (hex : ∃ r ∈ t, colVal r "project_number" = some (getPn p)) :
    ((∀ kv ∈ update_data p, kv ∈ p ∧ kv.1 ≠ "project_number") ∧
     (∀ kv ∈ p, kv.1 ≠ "project_number" → kv ∈ update_data p)) ∧
    (upsertStep t fresh p).length = t.length ∧
    (∀ r' ∈ upsertStep t fresh p, ∃ r ∈ t, r'.rid = r.rid ∧
      colVal r' "project_number" = colVal r "project_number") := by
  have hud : ∀ kv ∈ update_data p, kv.1 ≠ "project_number" := by
    intro kv hkv
    have := List.of_mem_filter hkv
    simpa using this
  obtain ⟨r0, hr0t, hr0v, hstep, hlen⟩ := upsertStep_found t fresh p hpn hex
  refine ⟨⟨?_, ?_⟩, hlen, ?_⟩
  · intro kv hkv
    exact ⟨List.mem_of_mem_filter hkv, hud kv hkv⟩
  · intro kv hkv hne
    exact List.mem_filter.mpr ⟨hkv, by simpa using hne⟩
  · intro r' hr'
    rw [hstep] at hr'
    obtain ⟨r, hr, hrr'⟩ := List.mem_map.mp hr'
    by_cases hid : (r.rid == r0.rid) = true
    · rw [if_pos hid] at hrr'
      refine ⟨r, hr, ?_, ?_⟩
      · rw [← hrr']
      · rw [← hrr']
        exact applyUpdate_lookup_ne (update_data p) r.cols "project_number" hud
    · rw [if_neg hid] at hrr'
      exact ⟨r, hr, by rw [← hrr'], by rw [← hrr']⟩

/-- Concrete remote table for the C8 witness. -/
def tEx : List RemoteRow :=
  [⟨0, [("project_number", "A6-0001"), ("project_name", "Old name")]⟩]

/-- Witness for `C8_update_data_frame` at a concrete table and project. -/
theorem C8_witness :
    (upsertStep tEx 3 pEx).length = tEx.length ∧
      ("project_name", "New name") ∈ update_data pEx := by
  have h := C8_update_data_frame tEx 3 pEx (by decide)
    ⟨⟨0, [("project_number", "A6-0001"), ("project_name", "Old name")]⟩, by decide, by decide⟩
  exact ⟨h.2.1, h.1.2 ("project_name", "New name") (by decide) (by decide)⟩

end SyncProjects

namespace UpdatePubspec

/-- Python regex `\w` on the ASCII range: letters, digits and underscore. -/
def wordChar (c : Char) : Bool := c.isAlphanum || c == '_'

/-- The version character class of the source regexes, `[\d\.\+\-]`. -/
def verChar (c : Char) : Bool := c.isDigit || c == '.' || c == '+' || c == '-'

/-- One match attempt of `(\w+): \^([\d\.\+\-]+)` at the head of `s`: a
maximal non-empty run of word characters, then `": ^"`, then a maximal
non-empty run of version characters.  Returns the two groups and the rest of
the text.  (With this pattern, a backtracking match attempt succeeds exactly
when the maximal runs do, since shortening `\w+` puts a word character where
`:` is required.) -/
def scanEntry (s : List Char) : Option (List Char × List Char × List Char) :=
  if (s.takeWhile wordChar).isEmpty then none
  else
    match s.dropWhile wordChar with
    | ':' :: ' ' :: '^' :: r2 =>
      if (r2.takeWhile verChar).isEmpty then none
      else some (s.takeWhile wordChar, r2.takeWhile verChar, r2.dropWhile verChar)
    | _ => none

theorem dropWhile_len_le (p : Char → Bool) (l : List Char) :
    (l.dropWhile p).length ≤ l.length := by
  conv_rhs => rw [← List.takeWhile_append_dropWhile p l]
  rw [List.length_append]
  omega

theorem scanEntry_shrink {s w v r3 : List Char} (h : scanEntry s = some (w, v, r3)) :
    r3.length < s.length := by
  unfold scanEntry at h
  split at h
  · exact absurd h (by simp)
  · split at h
    · rename_i r2 heq
      split at h
      · exact absurd h (by simp)
      · simp only [Option.some.injEq, Prod.mk.injEq] at h
        have h1 : (List.dropWhile wordChar s).length ≤ s.length :=
          dropWhile_len_le _ _
        rw [heq] at h1
        have h2 : (List.dropWhile verChar r2).length ≤ r2.length :=
          dropWhile_len_le _ _
        have hr3 : r3 = List.dropWhile verChar r2 := h.2.2.symm
        subst hr3
        simp only [List.length_cons] at h1
        omega
    · exact absurd h (by simp)

/-- Fuelled scanner for `re.findall(r'(\w+): \^([\d\.\+\-]+)', content)`:
scan left to right, at each position attempt a match; on success record the
groups and resume after the match, else move one character. -/
def findallGo : Nat → List Char → List (List Char × List Char)
  | 0, _ => []
  | _ + 1, [] => []
  | n + 1, c :: cs =>
    match scanEntry (c :: cs) with
    | some (w, v, r3) => (w, v) :: findallGo n r3
    | none => findallGo n cs

/-- `re.findall(r'(\w+): \^([\d\.\+\-]+)', content)`: the (package, version)
pairs, in text order. -/
def findallPkgs (s : List Char) : List (List Char × List Char) :=
  findallGo s.length s

theorem findallGo_fuel : ∀ (n : Nat) (s : List Char), s.length ≤ n →
    findallGo n s = findallGo s.length s := by
  intro n
  induction n using Nat.strong_induction_on with
  | _ n ih =>
    intro s h
    cases n with
    | zero =>
      have hs : s = [] := List.length_eq_zero.mp (Nat.le_zero.mp h)
      subst hs
      rfl
    | succ n =>
      cases s with
      | nil => rfl
      | cons c cs =>
        simp only [List.length_cons] at h
        cases hse : scanEntry (c :: cs) with
        | some t =>
          obtain ⟨w, v, r3⟩ := t
          have hlt := scanEntry_shrink hse
          simp only [List.length_cons] at hlt
          simp only [findallGo, hse, List.length_cons]
          rw [ih n (by omega) r3 (by omega), ih cs.length (by omega) r3 (by omega)]
        | none =>
          simp only [findallGo, hse, List.length_cons]
          rw [ih n (by omega) cs (by omega)]

theorem findallPkgs_cons (c : Char) (cs : List Char) :
    findallPkgs (c :: cs) =
      match scanEntry (c :: cs) with
      | some (w, v, r3) => (w, v) :: findallPkgs r3
      | none => findallPkgs cs := by
  show findallGo (cs.length + 1) (c :: cs) = _
  cases hse : scanEntry (c :: cs) with
  | some t =>
    obtain ⟨w, v, r3⟩ := t
    have hlt := scanEntry_shrink hse
    simp only [List.length_cons] at hlt
    simp only [findallGo, hse]
    rw [findallGo_fuel cs.length r3 (by omega)]
    rfl
  | none =>
    simp only [findallGo, hse]
    rfl

/-- `dict(packages)` lookup: Python builds a dict from the `(package, version)`
pairs, later pairs overwriting earlier ones, so a key maps to the value of its
last occurrence. -/
def pkgVersion (s : List Char) (p : List Char) : Option (List Char) :=
  (findallPkgs s).foldl (fun acc kv => if kv.1 == p then some kv.2 else acc) none

/-- `get_package_list_from_pubspec` as a membership map: the package names in the
manifest are the keys of `pkgVersion`. -/
def get_package_list_from_pubspec (content : String) : List (List Char × List Char) :=
  findallPkgs content.data

/-- Match the literal prefix `pre` against `s` and return the remainder. -/
def dropPref : List Char → List Char → Option (List Char)
  | [], s => some s
  | _ :: _, [] => none
  | a :: as, b :: bs => if a == b then dropPref as bs else none

/-- One match attempt of `re.sub`'s pattern `rf'{package}: \^[\d\.\+\-]+'` at
the head of `s`: the literal package name, then `": ^"`, then a maximal
non-empty run of version characters.  Returns the rest of the text after the
old version. -/
def litMatch (p : List Char) (s : List Char) : Option (List Char) :=
  match dropPref (p ++ [':', ' ', '^']) s with
  | none => none
  | some r2 =>
    if (r2.takeWhile verChar).isEmpty then none
    else some (r2.dropWhile verChar)

theorem dropPref_eq_some {pre s r : List Char} :
    dropPref pre s = some r ↔ s = pre ++ r := by
  induction pre generalizing s with
  | nil =>
    simp only [dropPref, Option.some.injEq, List.nil_append, eq_comm]
  | cons a as ih =>
    cases s with
    | nil =>
      simp only [dropPref]
      constructor
      · intro h
        cases h
      · intro h
        cases h
    | cons b bs =>
      simp only [dropPref, List.cons_append]
      by_cases hab : (a == b) = true
      · have hab2 : a = b := eq_of_beq hab
        subst hab2
        rw [if_pos hab, ih]
        constructor
        · intro h
          rw [h]
        · intro h
          injection h
      · rw [if_neg hab]
        constructor
        · intro h
          cases h
        · intro h
          have hba : a = b := by
            injection h with h1 h2
            exact h1.symm
          exact absurd (beq_iff_eq.mpr hba) hab

theorem litMatch_shrink {p s r3 : List Char} (h : litMatch p s = some r3) :
    r3.length < s.length := by
  unfold litMatch at h
  split at h
  · cases h
  · rename_i r2 hdp
    split at h
    · cases h
    · rename_i hv
      simp only [Option.some.injEq] at h
      have hs : s = (p ++ [':', ' ', '^']) ++ r2 := dropPref_eq_some.mp hdp
      have h2 : (List.dropWhile verChar r2).length ≤ r2.length := dropWhile_len_le _ _
      have hvne : 1 ≤ (r2.takeWhile verChar).length := by
        cases htv : r2.takeWhile verChar with
        | nil => rw [htv] at hv; simp at hv
        | cons a l => simp
      have hr2 : (r2.takeWhile verChar).length + (r2.dropWhile verChar).length
          = r2.length := by
        conv_rhs => rw [← List.takeWhile_append_dropWhile verChar r2]
        rw [List.length_append]
      rw [hs, ← h]
      simp only [List.length_append, List.length_cons]
      omega

/-- Fuelled scanner for `re.sub(rf'{package}: \^[\d\.\+\-]+', f'{package}:
^{new_version}', content)`: scan left to right, replace each non-overlapping
leftmost match, resuming after the matched text. -/
def subGo (p nv : List Char) : Nat → List Char → List Char
  | 0, s => s
  | _ + 1, [] => []
  | n + 1, c :: cs =>
    match litMatch p (c :: cs) with
    | some r3 => p ++ ':' :: ' ' :: '^' :: (nv ++ subGo p nv n r3)
    | none => c :: subGo p nv n cs

/-- One `re.sub` call of `update_pubspec_file` for one package. -/
def subPkg (p nv : List Char) (s : List Char) : List Char :=
  subGo p nv s.length s

theorem subGo_fuel : ∀ (p nv : List Char) (n : Nat) (s : List Char), s.length ≤ n →
    subGo p nv n s = subGo p nv s.length s := by
  intro p nv n
  induction n using Nat.strong_induction_on with
  | _ n ih =>
    intro s h
    cases n with
    | zero =>
      have hs : s = [] := List.length_eq_zero.mp (Nat.le_zero.mp h)
      subst hs
      rfl
    | succ n =>
      cases s with
      | nil => rfl
      | cons c cs =>
        simp only [List.length_cons] at h
        cases hse : litMatch p (c :: cs) with
        | some r3 =>
          have hlt := litMatch_shrink hse
          simp only [List.length_cons] at hlt
          simp only [subGo, hse, List.length_cons]
          rw [ih n (by omega) r3 (by omega), ih cs.length (by omega) r3 (by omega)]
        | none =>
          simp only [subGo, hse, List.length_cons]
          rw [ih n (by omega) cs (by omega)]

theorem subPkg_cons (p nv : List Char) (c : Char) (cs : List Char) :
    subPkg p nv (c :: cs) =
      match litMatch p (c :: cs) with
      | some r3 => p ++ ':' :: ' ' :: '^' :: (nv ++ subPkg p nv r3)
      | none => c :: subPkg p nv cs := by
  show subGo p nv (cs.length + 1) (c :: cs) = _
  cases hse : litMatch p (c :: cs) with
  | some r3 =>
    have hlt := litMatch_shrink hse
    simp only [List.length_cons] at hlt
    simp only [subGo, hse]
    rw [subGo_fuel p nv cs.length r3 (by omega)]
    rfl
  | none =>
    simp only [subGo, hse]
    rfl

/-- `update_pubspec_file`: the manifest text is rewritten by one `re.sub` per
`(package, new_version)` item, in mapping order (Python dicts iterate in
insertion order). -/
def update_pubspec_file (m : List (List Char × List Char)) (content : List Char) :
    List Char :=
  m.foldl (fun c kv => subPkg kv.1 kv.2 c) content

/-- The C3 counterexample manifest: `dio_http` pinned at 1.0.0, `http` at 2.0.0. -/
def cexContent : List Char := "dio_http: ^1.0.0\nhttp: ^2.0.0".data

/-- The C3 counterexample mapping: bump only `http` to 9.0.0. -/
def cexMap : List (List Char × List Char) := [("http".data, "9.0.0".data)]

/-- C3 counterexample: rewriting `http` to `9.0.0` also rewrites the entry of
`dio_http` (the pattern `http: \^...` matches inside `dio_http: ^1.0.0`), so a
package that is not in the mapping does not keep its version, contradicting
claim C3 as stated. -/
theorem C3_counterexample :
    pkgVersion cexContent "http".data = some "2.0.0".data ∧
    pkgVersion cexContent "dio_http".data = some "1.0.0".data ∧
    (∀ kv ∈ cexMap, kv.1 ≠ "dio_http".data) ∧
    update_pubspec_file cexMap cexContent = "dio_http: ^9.0.0\nhttp: ^9.0.0".data ∧
    pkgVersion (update_pubspec_file cexMap cexContent) "dio_http".data =
      some "9.0.0".data := by decide

/-- A well-formed package name: a non-empty run of word characters. -/
def wfName (nm : List Char) : Prop := nm ≠ [] ∧ ∀ c ∈ nm, wordChar c = true

/-- A well-formed version: a non-empty run of version characters. -/
def wfVer (v : List Char) : Prop := v ≠ [] ∧ ∀ c ∈ v, verChar c = true

instance (nm : List Char) : Decidable (wfName nm) :=
  decidable_of_iff (nm ≠ [] ∧ ∀ c ∈ nm, wordChar c = true) Iff.rfl

instance (v : List Char) : Decidable (wfVer v) :=
  decidable_of_iff (v ≠ [] ∧ ∀ c ∈ v, verChar c = true) Iff.rfl

/-- One dependency line of a pubspec manifest, `name: ^version`. -/
def renderEntry (e : List Char × List Char) : List Char :=
  e.1 ++ ':' :: ' ' :: '^' :: e.2

/-- A manifest consisting only of dependency lines, each newline-terminated. -/
def render : List (List Char × List Char) → List Char
  | [] => []
  | e :: rest => renderEntry e ++ '\n' :: render rest

theorem takeWhile_all_append {p : Char → Bool} {a : List Char}
    (ha : ∀ c ∈ a, p c = true) {b : Char} (hb : p b = false) (t : List Char) :
    (a ++ b :: t).takeWhile p = a ∧ (a ++ b :: t).dropWhile p = b :: t := by
  induction a with
  | nil =>
    constructor
    · exact List.takeWhile_cons_of_neg (by simp [hb])
    · exact List.dropWhile_cons_of_neg (by simp [hb])
  | cons c a ih =>
    have hc : p c = true := ha c (List.mem_cons_self _ _)
    have iha := ih (fun x hx => ha x (List.mem_cons_of_mem _ hx))
    constructor
    · rw [List.cons_append, List.takeWhile_cons_of_pos hc, iha.1]
    · rw [List.cons_append, List.dropWhile_cons_of_pos hc, iha.2]

theorem wordChar_colon : wordChar ':' = false := by decide

theorem verChar_newline : verChar '\n' = false := by decide

theorem scanEntry_entry {nm v : List Char} (hn : wfName nm) (hv : wfVer v)
    (r : List Char) :
    scanEntry (nm ++ ':' :: ' ' :: '^' :: (v ++ '\n' :: r)) =
      some (nm, v, '\n' :: r) := by
  obtain ⟨htw, hdw⟩ := takeWhile_all_append hn.2 wordChar_colon (' ' :: '^' :: (v ++ '\n' :: r))
  obtain ⟨htv, hdv⟩ := takeWhile_all_append hv.2 verChar_newline r
  rw [scanEntry, htw, hdw]
  have hne : ¬ nm.isEmpty = true := by
    cases hm : nm with
    | nil => exact absurd hm hn.1
    | cons a l => simp
  rw [if_neg hne]
  simp only [htv, hdv]
  have hvne : ¬ v.isEmpty = true := by
    cases hm : v with
    | nil => exact absurd hm hv.1
    | cons a l => simp
  rw [if_neg hvne]

theorem findallPkgs_nil : findallPkgs [] = [] := rfl

theorem scanEntry_newline (r : List Char) : scanEntry ('\n' :: r) = none := by
  rw [scanEntry, List.takeWhile_cons_of_neg (by decide)]
  simp

/-- On a well-formed rendered manifest, `re.findall` recovers exactly the entries. -/
theorem findall_render : ∀ es : List (List Char × List Char),
    (∀ e ∈ es, wfName e.1 ∧ wfVer e.2) → findallPkgs (render es) = es := by
  intro es
  induction es with
  | nil => intro _; rfl
  | cons e rest ih =>
    intro hwf
    obtain ⟨hn, hv⟩ := hwf e (List.mem_cons_self _ _)
    have hrest := fun x hx => hwf x (List.mem_cons_of_mem _ hx)
    rcases hnm : e.1 with _ | ⟨c, nm'⟩
    · exact absurd hnm hn.1
    · have hren : render (e :: rest) =
          c :: (nm' ++ ':' :: ' ' :: '^' :: (e.2 ++ '\n' :: render rest)) := by
        rw [render, renderEntry, hnm]
        simp
      have hse : scanEntry ((c :: nm') ++ ':' :: ' ' :: '^' :: (e.2 ++ '\n' :: render rest))
          = some (c :: nm', e.2, '\n' :: render rest) :=
        scanEntry_entry (hnm ▸ hn) hv _
      rw [hren, findallPkgs_cons]
      rw [List.cons_append] at hse
      rw [hse]
      show (c :: nm', e.2) :: findallPkgs ('\n' :: render rest) = e :: rest
      rw [findallPkgs_cons, scanEntry_newline]
      show (c :: nm', e.2) :: findallPkgs (render rest) = e :: rest
      rw [ih hrest, ← hnm]

theorem litMatch_none_of_not_word {p : List Char} (hp : wfName p) {c : Char}
    (hc : wordChar c = false) (cs : List Char) : litMatch p (c :: cs) = none := by
  rcases hpp : p with _ | ⟨a, as⟩
  · exact absurd hpp hp.1
  · have ha : wordChar a = true := hp.2 a (by rw [hpp]; exact List.mem_cons_self _ _)
    have hne : ¬ (a == c) = true := by
      intro hb
      rw [eq_of_beq hb] at ha
      rw [ha] at hc
      cases hc
    rw [litMatch]
    have : dropPref ((a :: as) ++ [':', ' ', '^']) (c :: cs) = none := by
      rw [List.cons_append, dropPref, if_neg hne]
    rw [this]

theorem dropPref_none_ver {p : List Char} (hp : ∀ c ∈ p, wordChar c = true) :
    ∀ {d : List Char}, (∀ c ∈ d, verChar c = true) → ∀ (z : List Char),
    dropPref (p ++ [':', ' ', '^']) (d ++ '\n' :: z) = none := by
  induction p with
  | nil =>
    intro d hd z
    cases d with
    | nil => rw [List.nil_append, List.nil_append, dropPref, if_neg (by decide)]
    | cons c cs =>
      have hc : verChar c = true := hd c (List.mem_cons_self _ _)
      have hne : ¬ (':' == c) = true := by
        intro hb
        rw [← eq_of_beq hb] at hc
        cases hc
      rw [List.nil_append, List.cons_append, dropPref, if_neg hne]
  | cons x xs ih =>
    intro d hd z
    have hx : wordChar x = true := hp x (List.mem_cons_self _ _)
    have hxs := fun c hc => hp c (List.mem_cons_of_mem _ hc)
    cases d with
    | nil =>
      have hne : ¬ (x == '\n') = true := by
        intro hb
        rw [eq_of_beq hb] at hx
        cases hx
      rw [List.nil_append, List.cons_append, dropPref, if_neg hne]
    | cons c cs =>
      have hcs := fun y hy => hd y (List.mem_cons_of_mem _ hy)
      by_cases hxc : (x == c) = true
      · rw [List.cons_append, List.cons_append, dropPref, if_pos hxc]
        exact ih hxs hcs z
      · rw [List.cons_append, List.cons_append, dropPref, if_neg hxc]

theorem dropPref_word_colon_eq {p : List Char} (hp : ∀ c ∈ p, wordChar c = true) :
    ∀ {a : List Char}, (∀ c ∈ a, wordChar c = true) → ∀ {z r : List Char},
    dropPref (p ++ [':', ' ', '^']) (a ++ ':' :: z) = some r → p = a := by
  induction p with
  | nil =>
    intro a ha z r h
    cases a with
    | nil => rfl
    | cons c cs =>
      exfalso
      have hc : wordChar c = true := ha c (List.mem_cons_self _ _)
      have hne : ¬ (':' == c) = true := by
        intro hb
        rw [← eq_of_beq hb] at hc
        cases hc
      rw [List.nil_append, List.cons_append, dropPref, if_neg hne] at h
      cases h
  | cons x xs ih =>
    intro a ha z r h
    have hx : wordChar x = true := hp x (List.mem_cons_self _ _)
    have hxs := fun c hc => hp c (List.mem_cons_of_mem _ hc)
    cases a with
    | nil =>
      exfalso
      have hne : ¬ (x == ':') = true := by
        intro hb
        rw [eq_of_beq hb] at hx
        cases hx
      rw [List.nil_append, List.cons_append, dropPref, if_neg hne] at h
      cases h
    | cons c cs =>
      have hcs := fun y hy => ha y (List.mem_cons_of_mem _ hy)
      by_cases hxc : (x == c) = true
      · rw [List.cons_append, List.cons_append, dropPref, if_pos hxc] at h
        rw [eq_of_beq hxc, ih hxs hcs h]
      · rw [List.cons_append, List.cons_append, dropPref, if_neg hxc] at h
        cases h

theorem litMatch_none_of_ne {p a : List Char} (hp : ∀ c ∈ p, wordChar c = true)
    (ha : ∀ c ∈ a, wordChar c = true) (hne : p ≠ a) (z : List Char) :
    litMatch p (a ++ ':' :: z) = none := by
  rw [litMatch]
  cases hdp : dropPref (p ++ [':', ' ', '^']) (a ++ ':' :: z) with
  | none => rfl
  | some r2 => exact absurd (dropPref_word_colon_eq hp ha hdp) hne

theorem subPkg_nil (p nv : List Char) : subPkg p nv [] = [] := rfl

theorem subPkg_copy_ver {p nv : List Char} (hp : wfName p) :
    ∀ {d : List Char}, (∀ c ∈ d, verChar c = true) → ∀ (r : List Char),
    subPkg p nv (d ++ '\n' :: r) = d ++ '\n' :: subPkg p nv r := by
  intro d
  induction d with
  | nil =>
    intro _ r
    rw [List.nil_append, subPkg_cons, litMatch_none_of_not_word hp (by decide), List.nil_append]
  | cons c cs ih =>
    intro hd r
    have hc : verChar c = true := hd c (List.mem_cons_self _ _)
    have hcs := fun y hy => hd y (List.mem_cons_of_mem _ hy)
    have hlm : litMatch p ((c :: cs) ++ '\n' :: r) = none := by
      rw [litMatch, dropPref_none_ver hp.2 hd r]
    rw [List.cons_append, subPkg_cons]
    rw [List.cons_append] at hlm
    rw [hlm, ih hcs r]
    rfl

theorem subPkg_copy_name {p nv : List Char} (hp : wfName p) :
    ∀ {a : List Char}, (∀ c ∈ a, wordChar c = true) → ¬ p <:+ a →
    ∀ {v : List Char}, (∀ c ∈ v, verChar c = true) → ∀ (r : List Char),
    subPkg p nv (a ++ ':' :: ' ' :: '^' :: (v ++ '\n' :: r)) =
      a ++ ':' :: ' ' :: '^' :: (v ++ '\n' :: subPkg p nv r) := by
  intro a
  induction a with
  | nil =>
    intro _ _ v hv r
    rw [List.nil_append, List.nil_append, subPkg_cons,
      litMatch_none_of_not_word hp (by decide)]
    rw [subPkg_cons, litMatch_none_of_not_word hp (by decide)]
    rw [subPkg_cons, litMatch_none_of_not_word hp (by decide)]
    rw [subPkg_copy_ver hp hv r]
  | cons c cs ih =>
    intro ha hsuf v hv r
    have hcs := fun y hy => ha y (List.mem_cons_of_mem _ hy)
    have hnsuf : ¬ p <:+ cs := fun h => hsuf (h.trans (List.suffix_cons c cs))
    have hne : p ≠ c :: cs := fun h => hsuf (h ▸ List.suffix_refl _)
    have hlm : litMatch p ((c :: cs) ++ ':' :: (' ' :: '^' :: (v ++ '\n' :: r))) = none :=
      litMatch_none_of_ne hp.2 ha hne _
    rw [List.cons_append, subPkg_cons]
    rw [List.cons_append] at hlm
    rw [hlm, ih hcs hnsuf hv r]
    rfl

theorem litMatch_self {p v : List Char} (hv : wfVer v) (r : List Char) :
    litMatch p (p ++ ':' :: ' ' :: '^' :: (v ++ '\n' :: r)) = some ('\n' :: r) := by
  have hdp : dropPref (p ++ [':', ' ', '^']) (p ++ ':' :: ' ' :: '^' :: (v ++ '\n' :: r))
      = some (v ++ '\n' :: r) := by
    rw [dropPref_eq_some]
    simp
  rw [litMatch, hdp]
  obtain ⟨htv, hdv⟩ := takeWhile_all_append hv.2 verChar_newline r
  show (if (List.takeWhile verChar (v ++ '\n' :: r)).isEmpty = true then none
      else some (List.dropWhile verChar (v ++ '\n' :: r))) = some ('\n' :: r)
  rw [htv, hdv]
  have hvne : ¬ v.isEmpty = true := by
    cases hm : v with
    | nil => exact absurd hm hv.1
    | cons a l => simp
  rw [if_neg hvne]

/-- The effect of one `re.sub` on a well-formed rendered manifest whose other
entry names do not have the package as a suffix: exactly the package's own
entries get the new version. -/
theorem subPkg_render {p nv : List Char} (hp : wfName p) :
    ∀ es : List (List Char × List Char),
    (∀ e ∈ es, wfName e.1 ∧ wfVer e.2) →
    (∀ e ∈ es, e.1 ≠ p → ¬ p <:+ e.1) →
    subPkg p nv (render es) =
      render (es.map (fun e => if e.1 == p then (e.1, nv) else e)) := by
  intro es
  induction es with
  | nil => intro _ _; rfl
  | cons e rest ih =>
    intro hwf hsuf
    obtain ⟨hn, hv⟩ := hwf e (List.mem_cons_self _ _)
    have hrest := fun x hx => hwf x (List.mem_cons_of_mem _ hx)
    have hsufrest := fun x hx => hsuf x (List.mem_cons_of_mem _ hx)
    by_cases hep : (e.1 == p) = true
    · have hep2 : e.1 = p := eq_of_beq hep
      obtain ⟨c, nm', hpp⟩ : ∃ c nm', p = c :: nm' := by
        cases hq : p with
        | nil => exact absurd hq hp.1
        | cons c nm' => exact ⟨c, nm', rfl⟩
      have hren : render (e :: rest) =
          c :: (nm' ++ ':' :: ' ' :: '^' :: (e.2 ++ '\n' :: render rest)) := by
        rw [render, renderEntry, hep2, hpp]
        simp
      have harg : p ++ ':' :: ' ' :: '^' :: (e.2 ++ '\n' :: render rest)
          = c :: (nm' ++ ':' :: ' ' :: '^' :: (e.2 ++ '\n' :: render rest)) := by
        rw [hpp]
        rfl
      have hlm : litMatch p (c :: (nm' ++ ':' :: ' ' :: '^' :: (e.2 ++ '\n' :: render rest)))
          = some ('\n' :: render rest) := by
        rw [← harg]
        exact litMatch_self hv _
      rw [hren, subPkg_cons, hlm]
      show p ++ ':' :: ' ' :: '^' :: (nv ++ subPkg p nv ('\n' :: render rest)) = _
      rw [subPkg_cons, litMatch_none_of_not_word hp (by decide)]
      rw [ih hrest hsufrest]
      rw [List.map_cons, if_pos hep, render, renderEntry, hep2]
      simp
    · have hne : e.1 ≠ p := fun h => hep (beq_iff_eq.mpr h)
      have hnsuf : ¬ p <:+ e.1 := hsuf e (List.mem_cons_self _ _) hne
      have hren : render (e :: rest) =
          e.1 ++ ':' :: ' ' :: '^' :: (e.2 ++ '\n' :: render rest) := by
        rw [render, renderEntry]
        simp
      rw [hren, subPkg_copy_name hp hn.2 hnsuf hv.2 (render rest)]
      rw [ih hrest hsufrest]
      rw [List.map_cons, if_neg hep, render, renderEntry]
      simp

theorem update_pubspec_cons (kv : List Char × List Char)
    (m : List (List Char × List Char)) (c : List Char) :
    update_pubspec_file (kv :: m) c = update_pubspec_file m (subPkg kv.1 kv.2 c) := rfl

/-- The whole `update_pubspec_file` fold on a well-formed rendered manifest:
every entry whose name has a mapping gets its mapped version, every other
entry is untouched. -/
theorem update_render : ∀ (m : List (List Char × List Char))
    (es : List (List Char × List Char)),
    (∀ kv ∈ m, wfName kv.1 ∧ wfVer kv.2) →
    (∀ e ∈ es, wfName e.1 ∧ wfVer e.2) →
    (∀ kv ∈ m, ∀ e ∈ es, e.1 ≠ kv.1 → ¬ kv.1 <:+ e.1) →
    (m.map (·.1)).Nodup →
    update_pubspec_file m (render es) = render (es.map (fun e =>
      match m.find? (fun kv => kv.1 == e.1) with
      | some kv => (e.1, kv.2)
      | none => e)) := by
  intro m
  induction m with
  | nil =>
    intro es _ _ _ _
    show render es = _
    congr 1
    conv_lhs => rw [← List.map_id' es]
    apply List.map_congr_left
    intro e _
    rfl
  | cons kv m ih =>
    intro es hm hes hsuf hnd
    obtain ⟨hkn, hkv⟩ := hm kv (List.mem_cons_self _ _)
    have hmrest := fun x hx => hm x (List.mem_cons_of_mem _ hx)
    rw [update_pubspec_cons]
    rw [subPkg_render hkn es hes
      (fun e he hne => hsuf kv (List.mem_cons_self _ _) e he hne)]
    rw [List.map_cons, List.nodup_cons] at hnd
    rw [ih (es.map (fun e => if e.1 == kv.1 then (e.1, kv.2) else e))
      hmrest ?hwf ?hsuf hnd.2]
    case hwf =>
      intro e' he'
      obtain ⟨e, he, hee⟩ := List.mem_map.mp he'
      obtain ⟨hen, hev⟩ := hes e he
      by_cases hcase : (e.1 == kv.1) = true
      · rw [if_pos hcase] at hee
        rw [← hee]
        exact ⟨hen, hkv⟩
      · rw [if_neg hcase] at hee
        rw [← hee]
        exact ⟨hen, hev⟩
    case hsuf =>
      intro kv' hkv' e' he' hne
      obtain ⟨e, he, hee⟩ := List.mem_map.mp he'
      have hfst : e'.1 = e.1 := by
        by_cases hcase : (e.1 == kv.1) = true
        · rw [if_pos hcase] at hee
          rw [← hee]
        · rw [if_neg hcase] at hee
          rw [← hee]
      rw [hfst]
      rw [hfst] at hne
      exact hsuf kv' (List.mem_cons_of_mem _ hkv') e he hne
    rw [List.map_map]
    congr 1
    apply List.map_congr_left
    intro e _
    by_cases hcase : (e.1 == kv.1) = true
    · have hcase2 : e.1 = kv.1 := eq_of_beq hcase
      have hkvcase : (kv.1 == e.1) = true := beq_iff_eq.mpr hcase2.symm
      have hnone : m.find? (fun kv' => kv'.1 == e.1) = none := by
        rw [List.find?_eq_none]
        intro x hx hxb
        exact hnd.1 (by
          have : x.1 = e.1 := eq_of_beq hxb
          rw [← hcase2, ← this]
          exact List.mem_map.mpr ⟨x, hx, rfl⟩)
      simp only [Function.comp, if_pos hcase, List.find?, hkvcase, hnone]
    · have hcase2 : e.1 ≠ kv.1 := fun h => hcase (beq_iff_eq.mpr h)
      have hkvcase : ¬ (kv.1 == e.1) = true := by
        intro hb
        exact hcase2 (eq_of_beq hb).symm
      have hkvcase2 : (kv.1 == e.1) = false := by
        cases hb : kv.1 == e.1
        · rfl
        · exact absurd hb hkvcase
      simp only [Function.comp, if_neg hcase, List.find?, hkvcase2]

/-- The last-wins association lookup that `dict(packages)[p]` performs. -/
theorem pkgVersion_eq (s p : List Char) :
    pkgVersion s p =
      (findallPkgs s).foldl (fun acc kv => if kv.1 == p then some kv.2 else acc) none := rfl

theorem lastLookup_skip {l : List (List Char × List Char)} {p : List Char}
    (h : ∀ kv ∈ l, kv.1 ≠ p) (acc : Option (List Char)) :
    l.foldl (fun acc kv => if kv.1 == p then some kv.2 else acc) acc = acc := by
  induction l generalizing acc with
  | nil => rfl
  | cons kv l ih =>
    rw [List.foldl_cons]
    have hne : ¬ (kv.1 == p) = true := by
      intro hb
      exact h kv (List.mem_cons_self _ _) (eq_of_beq hb)
    rw [if_neg hne]
    exact ih (fun x hx => h x (List.mem_cons_of_mem _ hx)) acc

theorem lastLookup_of_mem_nodup {l : List (List Char × List Char)}
    (hnd : (l.map (·.1)).Nodup) {p v : List Char} (hm : (p, v) ∈ l) :
    l.foldl (fun acc kv => if kv.1 == p then some kv.2 else acc) none = some v := by
  induction l with
  | nil => cases hm
  | cons kv l ih =>
    rw [List.map_cons, List.nodup_cons] at hnd
    rcases List.mem_cons.mp hm with heq | hmem
    · rw [List.foldl_cons, ← heq]
      have : ((p, v).1 == p) = true := by simp
      rw [if_pos this]
      apply lastLookup_skip
      intro x hx hxp
      rw [← heq] at hnd
      exact hnd.1 (hxp ▸ List.mem_map.mpr ⟨x, hx, rfl⟩)
    · rw [List.foldl_cons]
      have hne : ¬ (kv.1 == p) = true := by
        intro hb
        exact hnd.1 ((eq_of_beq hb) ▸ List.mem_map.mpr ⟨(p, v), hmem, rfl⟩)
      rw [if_neg hne]
      exact ih hnd.2 hmem

theorem find?_of_mem_nodup {m : List (List Char × List Char)}
    (hnd : (m.map (·.1)).Nodup) {kv : List Char × List Char} (hm : kv ∈ m) :
    m.find? (fun x => x.1 == kv.1) = some kv := by
  induction m with
  | nil => cases hm
  | cons a m ih =>
    rw [List.map_cons, List.nodup_cons] at hnd
    rcases List.mem_cons.mp hm with heq | hmem
    · rw [← heq, List.find?]
      have : (kv.1 == kv.1) = true := by simp
      rw [this]
    · rw [List.find?]
      have hne : (a.1 == kv.1) = false := by
        cases hb : a.1 == kv.1
        · rfl
        · exact absurd ((eq_of_beq hb) ▸ List.mem_map.mpr ⟨kv, hmem, rfl⟩) hnd.1
      rw [hne]
      exact ih hnd.2 hmem

/-- The per-entry effect of the whole mapping: a mapped name gets its new
version, others are unchanged. -/
def applyMap (m : List (List Char × List Char)) (e : List Char × List Char) :
    List Char × List Char :=
  match m.find? (fun kv => kv.1 == e.1) with
  | some kv => (e.1, kv.2)
  | none => e

theorem applyMap_fst (m : List (List Char × List Char)) (e : List Char × List Char) :
    (applyMap m e).1 = e.1 := by
  unfold applyMap
  cases m.find? (fun kv => kv.1 == e.1) with
  | none => rfl
  | some kv => rfl

/-- C3 (amended): over a manifest consisting of dependency lines `name: ^version`
(word-character names, versions over the `[\d.+-]` class, distinct names) and a
mapping with distinct keys and well-formed versions, provided no mapped package
name is a suffix of a different entry's name, `update_pubspec_file` gives every
mapped package its new version and leaves the entry of every package not in
the mapping unchanged, as read back by `get_package_list_from_pubspec`. -/
theorem C3_update_pubspec_amended (es m : List (List Char × List Char))
    (hes : ∀ e ∈ es, wfName e.1 ∧ wfVer e.2)
    (hnames : (es.map (·.1)).Nodup)
    (hm : ∀ kv ∈ m, wfName kv.1 ∧ wfVer kv.2)
    (hmnd : (m.map (·.1)).Nodup)
    (hsuf : ∀ kv ∈ m, ∀ e ∈ es, e.1 ≠ kv.1 → ¬ kv.1 <:+ e.1) :
    (∀ kv ∈ m, ∀ v, (kv.1, v) ∈ es →
      pkgVersion (update_pubspec_file m (render es)) kv.1 = some kv.2) ∧
    (∀ e ∈ es, (∀ kv ∈ m, kv.1 ≠ e.1) →
      pkgVersion (update_pubspec_file m (render es)) e.1 =
        pkgVersion (render es) e.1) := by
  have hupd : update_pubspec_file m (render es) = render (es.map (applyMap m)) :=
    update_render m es hm hes hsuf hmnd
  have hes2 : ∀ e' ∈ es.map (applyMap m), wfName e'.1 ∧ wfVer e'.2 := by
    intro e' he'
    obtain ⟨e, he, hee⟩ := List.mem_map.mp he'
    obtain ⟨hen, hev⟩ := hes e he
    rw [← hee]
    unfold applyMap
    rcases hf : m.find? (fun kv => kv.1 == e.1) with _ | kv
    · rw [hf]
      exact ⟨hen, hev⟩
    · rw [hf]
      exact ⟨hen, (hm kv (List.mem_of_find?_eq_some hf)).2⟩
  have hnames2 : ((es.map (applyMap m)).map (·.1)).Nodup := by
    rw [List.map_map]
    have hcomp : ((fun x : List Char × List Char => x.1) ∘ applyMap m) =
        (fun e : List Char × List Char => e.1) := by
      funext e
      exact applyMap_fst m e
    rw [hcomp]
    exact hnames
  have hfind := findall_render _ hes2
  have hfindes := findall_render es hes
  constructor
  · intro kv hkv v hv
    rw [hupd, pkgVersion_eq, hfind]
    apply lastLookup_of_mem_nodup hnames2
    have happ : applyMap m (kv.1, v) = (kv.1, kv.2) := by
      unfold applyMap
      rw [find?_of_mem_nodup hmnd hkv]
    rw [← happ]
    exact List.mem_map.mpr ⟨(kv.1, v), hv, rfl⟩
  · intro e he hnokey
    have hfnone : m.find? (fun kv => kv.1 == e.1) = none := by
      rw [List.find?_eq_none]
      intro kv hkv hb
      exact hnokey kv hkv (eq_of_beq hb)
    rw [hupd, pkgVersion_eq, hfind, pkgVersion_eq, hfindes]
    have happ : applyMap m e = e := by
      unfold applyMap
      rw [hfnone]
    have hmem2 : e ∈ es.map (applyMap m) :=
      List.mem_map.mpr ⟨e, he, happ⟩
    rcases he2 : e with ⟨en, ev⟩
    rw [he2] at hmem2 he
    rw [lastLookup_of_mem_nodup hnames2 hmem2, lastLookup_of_mem_nodup hnames he]

/-- Concrete manifest entries for the C3 witness. -/
def wEs : List (List Char × List Char) :=
  [("http".data, "1.0.0".data), ("dio".data, "2.0.0".data)]

/-- Concrete mapping for the C3 witness: bump only `http`. -/
def wM : List (List Char × List Char) := [("http".data, "9.9.9".data)]

/-- Witness for `C3_update_pubspec_amended` at a concrete manifest. -/
theorem C3_witness :
    pkgVersion (update_pubspec_file wM (render wEs)) "http".data =
      some "9.9.9".data ∧
    pkgVersion (update_pubspec_file wM (render wEs)) "dio".data =
      pkgVersion (render wEs) "dio".data := by
  have h := C3_update_pubspec_amended wEs wM (by decide) (by decide) (by decide)
    (by decide) (by decide)
  exact ⟨h.1 ("http".data, "9.9.9".data) (by decide) "1.0.0".data (by decide),
    h.2 ("dio".data, "2.0.0".data) (by decide) (by decide)⟩

end UpdatePubspec



namespace DeepSearch

/-- The chat-indicator substrings searched for in decoded values. -/
def chat_indicators : List String :=
  ["message", "user", "assistant", "role", "content",
   "conversation", "chat", "prompt", "response",
   "text", "body", "messages", "thread"]

/-- The key-name terms of the `elif` branch. -/
def key_terms : List String := ["chat", "message", "conversation", "session"]

/-- Python `needle in haystack` substring test. -/
def isSub (n h : List Char) : Bool :=
  match h with
  | [] => n.isEmpty
  | _ :: t => n.isPrefixOf h || isSub n t

/-- `indicator_count = sum(1 for indicator in chat_indicators if indicator in
value_lower)`. -/
def indicator_count (valueLower : List Char) : Nat :=
  chat_indicators.countP (fun i => isSub i.data valueLower)

/-- One `(key, value)` item of `ItemTable`, after decoding the value to text. -/
structure Item where
  key : String
  value : String
deriving DecidableEq

/-- The `indicators` field of a reported item: a numeric count or `'key_match'`. -/
inductive IndVal where
  | num (n : Nat)
  | key_match
deriving DecidableEq

/-- A reported potential chat item (`type` is `json` or `string`). -/
structure Reported where
  key : String
  typJson : Bool
  indicators : IndVal
deriving DecidableEq

/-- The per-item branch of `deep_search_workspace_db` (lines 37-101).  `jsonOk`
models whether `json.loads` succeeds on the value. -/
def classify (jsonOk : String → Bool) (it : Item) : Option Reported :=
  if 50 < it.value.length then
    let cnt := indicator_count (lowerL it.value.data)
    if 2 ≤ cnt then
      if jsonOk it.value then some ⟨it.key, true, .num cnt⟩
      else if 200 < it.value.length then some ⟨it.key, false, .num cnt⟩
      else none
    else none
  else if it.value ≠ "" ∧ key_terms.any (fun t => isSub t.data (lowerL it.key.data)) then
    if jsonOk it.value then some ⟨it.key, true, .key_match⟩
    else some ⟨it.key, false, .key_match⟩
  else none

/-- The sort key of `potential_chat_items.sort`: a numeric `indicators` field is
used as is, anything else counts as 0. -/
def effKey (r : Reported) : Nat :=
  match r.indicators with
  | .num n => n
  | .key_match => 0

/-- Stable insert used to model Python's stable `list.sort(key=..., reverse=True)`:
an element goes after all existing elements with a key at least as large. -/
def insertDesc (x : Reported) : List Reported → List Reported
  | [] => [x]
  | y :: ys => if effKey x ≤ effKey y then y :: insertDesc x ys else x :: y :: ys

/-- Stable descending sort by `effKey` (stable sorts of a list agree, so this
computes exactly what `list.sort(key=..., reverse=True)` produces). -/
def sortDesc (l : List Reported) : List Reported :=
  l.foldl (fun acc x => insertDesc x acc) []

/-- `deep_search_workspace_db`, observed as the reported item list: classify
every `ItemTable` item, then sort by indicator count, most likely first. -/
def deep_search_workspace_db (jsonOk : String → Bool) (items : List Item) :
    List Reported :=
  sortDesc (items.filterMap (classify jsonOk))

theorem insertDesc_mem (x a : Reported) (l : List Reported) :
    a ∈ insertDesc x l ↔ a = x ∨ a ∈ l := by
  induction l with
  | nil => simp [insertDesc]
  | cons y ys ih =>
    rw [insertDesc]
    by_cases hxy : effKey x ≤ effKey y
    · rw [if_pos hxy]
      simp only [List.mem_cons, ih]
      tauto
    · rw [if_neg hxy]
      simp only [List.mem_cons]

theorem insertDesc_sorted (x : Reported) (l : List Reported)
    (h : l.Pairwise (fun a b => effKey b ≤ effKey a)) :
    (insertDesc x l).Pairwise (fun a b => effKey b ≤ effKey a) := by
  induction l with
  | nil => simp [insertDesc]
  | cons y ys ih =>
    rw [List.pairwise_cons] at h
    rw [insertDesc]
    by_cases hxy : effKey x ≤ effKey y
    · rw [if_pos hxy, List.pairwise_cons]
      refine ⟨?_, ih h.2⟩
      intro a ha
      rcases (insertDesc_mem x a ys).mp ha with hax | ha2
      · rw [hax]
        exact hxy
      · exact h.1 a ha2
    · rw [if_neg hxy, List.pairwise_cons]
      refine ⟨?_, List.pairwise_cons.mpr h⟩
      intro a ha
      rcases List.mem_cons.mp ha with hay | ha2
      · rw [hay]
        omega
      · have := h.1 a ha2
        omega

theorem sortDesc_sorted (l : List Reported) :
    (sortDesc l).Pairwise (fun a b => effKey b ≤ effKey a) := by
  have hgen : ∀ acc, acc.Pairwise (fun a b => effKey b ≤ effKey a) →
      (l.foldl (fun acc x => insertDesc x acc) acc).Pairwise
        (fun a b => effKey b ≤ effKey a) := by
    induction l with
    | nil => intro acc h; exact h
    | cons x xs ih =>
      intro acc h
      exact ih _ (insertDesc_sorted x acc h)
  exact hgen [] (by simp)

theorem sortDesc_mem (l : List Reported) (a : Reported) :
    a ∈ sortDesc l ↔ a ∈ l := by
  have hgen : ∀ acc, (a ∈ l.foldl (fun acc x => insertDesc x acc) acc ↔
      a ∈ acc ∨ a ∈ l) := by
    induction l with
    | nil => intro acc; simp
    | cons x xs ih =>
      intro acc
      rw [List.foldl_cons, ih, insertDesc_mem]
      simp only [List.mem_cons]
      tauto
  rw [sortDesc, hgen []]
  simp

/-- The numeric indicator count of a reported item, when it has one. -/
def numOf (r : Reported) : Option Nat :=
  match r.indicators with
  | .num n => some n
  | .key_match => none

/-- The amended per-item reporting condition (see `C9_deep_search_amended`). -/
def c9AmendedCond (jsonOk : String → Bool) (it : Item) : Prop :=
  (50 < it.value.length ∧ 2 ≤ indicator_count (lowerL it.value.data) ∧
    (jsonOk it.value = true ∨ 200 < it.value.length)) ∨
  (it.value.length ≤ 50 ∧ it.value ≠ "" ∧
    key_terms.any (fun t => isSub t.data (lowerL it.key.data)) = true)

/-- The reporting condition that claim C9 states. -/
def c9ClaimCond (it : Item) : Prop :=
  (50 < it.value.length ∧ 2 ≤ indicator_count (lowerL it.value.data)) ∨
  key_terms.any (fun t => isSub t.data (lowerL it.key.data)) = true

/-- Item whose key matches but whose long value has too few indicators. -/
def cexItem1 : Item := ⟨"chat_history", "AAAAAAAAAAAAAAAAAAAAAAAAAAAAAAAAAAAAAAAAAAAAAAAAAAAAAAAAAAAA"⟩

/-- Item with a long (51-200 chars) non-JSON value holding two indicators. -/
def cexItem2 : Item := ⟨"k", "user message padding padding padding padding padding padding"⟩

/-- Item with a chat key and an empty value. -/
def cexItem3 : Item := ⟨"chat", ""⟩

/-- C9 counterexample: all three items satisfy claim C9's reporting condition,
yet `deep_search_workspace_db` reports none of them (the key-name branch only
runs for values of at most 50 characters, and a long non-JSON value is only
reported when it exceeds 200 characters).  `json.loads` fails on all three
values, so `jsonOk` is instantiated to the constantly-false oracle. -/
theorem C9_counterexample :
    c9ClaimCond cexItem1 ∧ c9ClaimCond cexItem2 ∧ c9ClaimCond cexItem3 ∧
    deep_search_workspace_db (fun _ => false) [cexItem1, cexItem2, cexItem3] = [] := by
  refine ⟨?_, ?_, ?_, ?_⟩
  · right
    decide
  · left
    decide
  · right
    decide
  · decide

theorem classify_isSome_iff (jsonOk : String → Bool) (it : Item) :
    (classify jsonOk it).isSome ↔ c9AmendedCond jsonOk it := by
  unfold classify c9AmendedCond
  by_cases h1 : 50 < it.value.length
  · rw [if_pos h1]
    by_cases h2 : 2 ≤ indicator_count (lowerL it.value.data)
    · rw [if_pos h2]
      by_cases h3 : jsonOk it.value = true
      · rw [if_pos h3]
        simp only [Option.isSome_some, true_iff]
        exact Or.inl ⟨h1, h2, Or.inl h3⟩
      · rw [if_neg h3]
        by_cases h4 : 200 < it.value.length
        · rw [if_pos h4]
          simp only [Option.isSome_some, true_iff]
          exact Or.inl ⟨h1, h2, Or.inr h4⟩
        · rw [if_neg h4]
          simp only [Option.isSome_none, Bool.false_eq_true, false_iff]
          intro hc
          rcases hc with ⟨_, _, hj | hl⟩ | ⟨hle, _, _⟩
          · exact h3 hj
          · exact h4 hl
          · omega
    · rw [if_neg h2]
      simp only [Option.isSome_none, Bool.false_eq_true, false_iff]
      intro hc
      rcases hc with ⟨_, hcnt, _⟩ | ⟨hle, _, _⟩
      · exact h2 hcnt
      · omega
  · rw [if_neg h1]
    by_cases h5 : it.value ≠ "" ∧ key_terms.any (fun t => isSub t.data (lowerL it.key.data))
    · rw [if_pos h5]
      by_cases h3 : jsonOk it.value = true
      · rw [if_pos h3]
        simp only [Option.isSome_some, true_iff]
        exact Or.inr ⟨by omega, h5.1, h5.2⟩
      · rw [if_neg h3]
        simp only [Option.isSome_some, true_iff]
        exact Or.inr ⟨by omega, h5.1, h5.2⟩
    · rw [if_neg h5]
      simp only [Option.isSome_none, Bool.false_eq_true, false_iff]
      intro hc
      rcases hc with ⟨hlong, _, _⟩ | ⟨_, hne, hkey⟩
      · exact h1 hlong
      · exact h5 ⟨hne, hkey⟩

/-- C9 (amended): an `ItemTable` item is reported as a potential chat item iff
either its decoded value is longer than 50 characters, contains at least 2 of
the chat-indicator substrings (case-insensitive), and moreover parses as JSON
or is longer than 200 characters; or its value is non-empty, at most 50
characters long, and its key contains one of 'chat', 'message',
'conversation', 'session' (case-insensitive).  The output holds exactly the
classification results of the input items, and its items with numeric
indicator counts are listed in non-increasing order of that count. -/
theorem C9_deep_search_amended (jsonOk : String → Bool) (items : List Item)
    (it : Item) (hmem : it ∈ items) :
    ((∃ r ∈ deep_search_workspace_db jsonOk items, classify jsonOk it = some r) ↔
      c9AmendedCond jsonOk it) ∧
    (∀ r, r ∈ deep_search_workspace_db jsonOk items ↔
      ∃ i ∈ items, classify jsonOk i = some r) ∧
    ((deep_search_workspace_db jsonOk items).filter
        (fun r => (numOf r).isSome)).Pairwise (fun a b => effKey b ≤ effKey a) := by
  have hmemiff : ∀ r, r ∈ deep_search_workspace_db jsonOk items ↔
      ∃ i ∈ items, classify jsonOk i = some r := by
    intro r
    rw [deep_search_workspace_db, sortDesc_mem, List.mem_filterMap]
  refine ⟨?_, hmemiff, (sortDesc_sorted _).filter _⟩
  constructor
  · rintro ⟨r, _, hr⟩
    rw [← classify_isSome_iff, hr]
    rfl
  · intro hc
    obtain ⟨r, hr⟩ := Option.isSome_iff_exists.mp ((classify_isSome_iff jsonOk it).mpr hc)
    exact ⟨r, (hmemiff r).mpr ⟨it, hmem, hr⟩, hr⟩

/-- A short item with a chat key, reported through the `elif` branch. -/
def wItem : Item := ⟨"chat", "hello"⟩

/-- Witness for `C9_deep_search_amended` at a concrete item list. -/
theorem C9_witness :
    (⟨"chat", false, IndVal.key_match⟩ : Reported) ∈
      deep_search_workspace_db (fun _ => false) [wItem] := by
  have h := C9_deep_search_amended (fun _ => false) [wItem] wItem
    (List.mem_cons_self _ _)
  exact (h.2.1 ⟨"chat", false, IndVal.key_match⟩).mpr ⟨wItem, List.mem_cons_self _ _, by decide⟩

end DeepSearch


namespace Payroll

/-- A normalized duplicate-check key `(user_id, work_date, start_time)`. -/
abbrev DKey := String × String × String

/-- `int(...)` on a stripped string of digits with an optional sign. -/
def digitsToNat (s : List Char) : Nat :=
  s.foldl (fun acc c => acc * 10 + (c.toNat - 48)) 0

/-- Python `int(str)`: strip, optional sign, then decimal digits. -/
def pyInt? (s : List Char) : Option Int :=
  match trimL s with
  | '+' :: rest =>
    if rest ≠ [] ∧ ∀ c ∈ rest, c.isDigit then some (digitsToNat rest : Int) else none
  | '-' :: rest =>
    if rest ≠ [] ∧ ∀ c ∈ rest, c.isDigit then some (-(digitsToNat rest : Int)) else none
  | t => if t ≠ [] ∧ ∀ c ∈ t, c.isDigit then some (digitsToNat t : Int) else none

/-- `_is_site_placeholder`: the Employee cell is `Site 1` .. `Site 20` (after
stripping, case-insensitive). -/
def is_site_placeholder (v : Option String) : Bool :=
  match v with
  | none => false
  | some s0 =>
    let s := trimL s0.data
    if s.isEmpty then false
    else
      let lower := lowerL s
      if "site ".data.isPrefixOf lower then
        match pyInt? (lower.drop 5) with
        | some n => decide (1 ≤ n ∧ n ≤ 20)
        | none => false
      else false

/-- `resolve_user_id`: strip the Employee cell, reject empty names and site
placeholders, then look the display name up in `users_setup` (modelled by the
`usersSetup` map; the in-memory cache of the source is semantically inert). -/
def resolve_user_id (usersSetup : String → Option String) (v : Option String) :
    Option String :=
  match v with
  | none => none
  | some s0 =>
    if pyStrip s0 == "" || is_site_placeholder (some (pyStrip s0)) then none
    else usersSetup (pyStrip s0)

/-- `_dup_key(uid, wd, st)`: normalize `(user_id, work_date, start_time)` so DB
format variants match: first 10 characters of the work date, and the start
time cut to 19 characters with spaces replaced by `T` and a trailing `Z`. -/
def dup_key (uid wd : String) (st : Option String) : Option DKey :=
  match st with
  | none => none
  | some st0 =>
    if uid == "" || wd == "" || st0 == "" then none
    else
      let s := pyStrip st0
      if s == "" then none
      else
        let s2 : String :=
          if 19 ≤ s.data.length then
            ⟨(s.data.take 19).map (fun c => if c == ' ' then 'T' else c) ++ ['Z']⟩
          else if s.data.getLast? == some 'Z' then s
          else ⟨s.data ++ ['Z']⟩
        some (uid, ⟨wd.data.take 10⟩, s2)

/-- Two-digit zero-padded rendering of `strftime` fields (arguments stay below
100: hours and minutes). -/
def two (n : Nat) : List Char := [Char.ofNat (48 + n / 10), Char.ofNat (48 + n % 10)]

/-- `datetime.combine(work_date, t).strftime("%Y-%m-%dT%H:%M:%S.000Z")` with `t`
in minutes since midnight (parsed times have zero seconds). -/
def start_time_iso (wd : String) (t : Option Nat) : Option String :=
  t.map (fun tm =>
    ⟨wd.data ++ 'T' :: (two (tm / 60) ++ ':' :: two (tm % 60)
      ++ [':', '0', '0', '.', '0', '0', '0', 'Z'])⟩)

/-- `round(break_min / 15) * 15` for a positive integer number of minutes: an
exact .5 tie would need `break_min = 15k + 7.5`, impossible for integers, so
Python's bankers rounding equals rounding half up here. -/
def round15 (bm : Int) : Nat := ((2 * bm.toNat + 15) / 30) * 15

/-- A `time_period_breaks` row, with times in minutes relative to the work
date's midnight (the date part cancels in every comparison and duration). -/
structure BreakRow where
  bstart : Int
  bfinish : Int
  display_order : Nat
deriving DecidableEq

/-- `period_end.replace(minute=(period_end.minute // 15) * 15, second=0,
microsecond=0)` in minutes. -/
def floor15 (ft : Nat) : Int := ((ft : Int) / 60) * 60 + (((ft : Int) % 60) / 15) * 15

/-- The break rows the importer inserts for one imported spreadsheet row
(lines 733-768): nothing if no positive parsed break duration; one break at
13:00 (moved to the end of the work period when 13:00 falls outside it) when
the duration rounded to 15 minutes is at most 30; two breaks, the larger one
at 13:00, otherwise. -/
def genBreaks (startT finishT : Option Nat) (breakMin : Int) : List BreakRow :=
  if breakMin ≤ 0 then []
  else
    let r := round15 breakMin
    if r ≤ 30 then
      match startT, finishT with
      | some st, some ft =>
        if (780 : Int) < (st : Int) ∨ (ft : Int) < 780 then
          [⟨floor15 ft - r, floor15 ft, 0⟩]
        else [⟨780, 780 + r, 0⟩]
      | _, _ => [⟨780, 780 + r, 0⟩]
    else
      let b1 := (r + 1) / 2
      let b2 := r - b1
      let p := if b1 < b2 then (b2, b1) else (b1, b2)
      [⟨600, 600 + (p.2 : Int), 0⟩, ⟨780, 780 + (p.1 : Int), 1⟩]

/-- C6: for every imported row with a positive parsed break duration, the
inserted break rows' durations sum to the duration rounded to the nearest 15
minutes; when the rounded duration is at most 30 there is exactly one break,
starting at 13:00 unless 13:00 lies strictly outside the row's start-finish
period, in which case it is placed at the end of the period (finish rounded
down to 15 minutes); when it exceeds 30 there are exactly two breaks with the
larger one starting at 13:00. -/
theorem C6_break_rows (startT finishT : Option Nat) (bm : Int) (hbm : 0 < bm) :
    ((genBreaks startT finishT bm).map (fun b => b.bfinish - b.bstart)).sum
        = (round15 bm : Int) ∧
    (round15 bm ≤ 30 →
      ∃ b, genBreaks startT finishT bm = [b] ∧
        b.bfinish - b.bstart = (round15 bm : Int) ∧
        (match startT, finishT with
         | some st, some ft =>
            if (780 : Int) < (st : Int) ∨ (ft : Int) < 780
            then b.bfinish = floor15 ft ∧ b.bstart = floor15 ft - round15 bm
            else b.bstart = 780
         | _, _ => b.bstart = 780)) ∧
    (30 < round15 bm →
      ∃ b1 b2, genBreaks startT finishT bm = [b1, b2] ∧
        b2.bstart = 780 ∧ b1.bstart = 600 ∧
        (b1.bfinish - b1.bstart) ≤ (b2.bfinish - b2.bstart) ∧
        (b1.bfinish - b1.bstart) + (b2.bfinish - b2.bstart) = (round15 bm : Int)) := by
  have hb : ¬ bm ≤ 0 := by omega
  unfold genBreaks
  rw [if_neg hb]
  by_cases hr : round15 bm ≤ 30
  · rw [if_pos hr]
    rcases startT with _ | st <;> rcases finishT with _ | ft
    · refine ⟨by simp, fun _ => ⟨_, rfl, by simp, rfl⟩, fun h => absurd hr (by omega)⟩
    · refine ⟨by simp, fun _ => ⟨_, rfl, by simp, rfl⟩, fun h => absurd hr (by omega)⟩
    · refine ⟨by simp, fun _ => ⟨_, rfl, by simp, rfl⟩, fun h => absurd hr (by omega)⟩
    · dsimp only
      by_cases hout : (780 : Int) < (st : Int) ∨ (ft : Int) < 780
      · rw [if_pos hout]
        refine ⟨by simp, fun _ => ⟨_, rfl, by simp, ?_⟩, fun h => absurd hr (by omega)⟩
        rw [if_pos hout]
        exact ⟨rfl, rfl⟩
      · rw [if_neg hout]
        refine ⟨by simp, fun _ => ⟨_, rfl, by simp, ?_⟩, fun h => absurd hr (by omega)⟩
        rw [if_neg hout]
  · rw [if_neg hr]
    dsimp only
    have hswap : ¬ (round15 bm + 1) / 2 < round15 bm - (round15 bm + 1) / 2 := by
      omega
    rw [if_neg hswap]
    refine ⟨by simp; omega, fun h => absurd h (by omega), fun _ => ?_⟩
    refine ⟨_, _, rfl, rfl, rfl, ?_, ?_⟩
    · simp only
      omega
    · simp only
      push_cast
      omega

/-- Witness for `C6_break_rows` at concrete durations. -/
theorem C6_witness :
    ((genBreaks (some 480) (some 1020) 50).map (fun b => b.bfinish - b.bstart)).sum
      = (round15 50 : Int) ∧
    (∃ b1 b2, genBreaks (some 480) (some 1020) 50 = [b1, b2] ∧
      b2.bstart = 780 ∧ b1.bstart = 600 ∧
      (b1.bfinish - b1.bstart) ≤ (b2.bfinish - b2.bstart) ∧
      (b1.bfinish - b1.bstart) + (b2.bfinish - b2.bstart) = (round15 50 : Int)) := by
  have h := C6_break_rows (some 480) (some 1020) 50 (by decide)
  exact ⟨h.1, h.2.2 (by decide)⟩

/-- Outcome of one `time_periods` insert call: success with returned data,
success with empty data (`insert returned no data`), or a raised exception. -/
inductive InsertRes where
  | ok
  | okNoData
  | raise (msg : String)
deriving DecidableEq

/-- One data row of the loop, at the granularity the loop reads it: the raw
cell count, the raw Employee cell, and the already-parsed values the cell
parsers (`_parse_date`, `_parse_time`, `_parse_hours_to_minutes`,
`_parse_break_minutes`) produce for it. -/
structure Row where
  width : Nat
  employee : Option String
  workDate : Option String
  hoursMin : Int
  startT : Option Nat
  finishT : Option Nat
  breakMin : Int

/-- The run's environment: the `users_setup` lookup, the `--employees`
selection if any, and the outcome of the insert call for each row index. -/
structure Env where
  usersSetup : String → Option String
  selected : Option (List String)
  oracle : Nat → InsertRes

/-- Observable state of one non-diagnose run: the `existing_keys` set, the
insert attempts and full successes with their duplicate keys, the recorded
errors, the break rows inserted per row, the `skipped_duplicate` counter and
the number of loop iterations. -/
structure RunState where
  existingKeys : List DKey
  attempts : List (Nat × Option DKey)
  okInserts : List (Nat × Option DKey)
  errors : List (Nat × String)
  breaks : List (Nat × List BreakRow)
  skippedDup : Nat
  processed : Nat
deriving DecidableEq

/-- The selected-employees filter (`emp_name not in selected_employees`). -/
def notSelected (env : Env) (row : Row) : Bool :=
  match env.selected with
  | some sel => !(sel.contains (pyStrip (row.employee.getD "")))
  | none => false

/-- The insert call and its aftermath: an exception is recorded and the loop
moves on; an insert returning no data is recorded and the loop moves on; on
success the key is added to `existing_keys` and the break rows are inserted. -/
def attemptInsert (env : Env) (s : RunState) (idx : Nat) (row : Row)
    (dupK : Option DKey) : RunState :=
  match env.oracle idx with
  | .raise msg =>
    { s with attempts := s.attempts ++ [(idx, dupK)],
             errors := s.errors ++ [(idx, msg)] }
  | .okNoData =>
    { s with attempts := s.attempts ++ [(idx, dupK)],
             errors := s.errors ++ [(idx, "insert returned no data")] }
  | .ok =>
    { s with attempts := s.attempts ++ [(idx, dupK)],
             okInserts := s.okInserts ++ [(idx, dupK)],
             existingKeys := (match dupK with
               | some k => s.existingKeys ++ [k]
               | none => s.existingKeys),
             breaks := (if 0 < row.breakMin then
                 s.breaks ++ [(idx, genBreaks row.startT row.finishT row.breakMin)]
               else s.breaks) }

/-- The body of one loop iteration (lines 598-822), after the iteration
counter: the skip cascade (row too short, Site placeholder, unknown employee,
not selected, no date, no hours, duplicate key) and then the insert. -/
def processRowBody (env : Env) (s : RunState) (idx : Nat) (row : Row) : RunState :=
  if row.width < 9 then s
  else if is_site_placeholder row.employee then s
  else
    match resolve_user_id env.usersSetup row.employee with
    | none => s
    | some uid =>
      if notSelected env row then s
      else
        match row.workDate with
        | none => s
        | some wd =>
          if row.hoursMin ≤ 0 then s
          else
            match dup_key uid wd (start_time_iso wd row.startT) with
            | some k =>
              if s.existingKeys.contains k then
                { s with skippedDup := s.skippedDup + 1 }
              else attemptInsert env s idx row (some k)
            | none => attemptInsert env s idx row none

/-- One loop iteration. -/
def processRow (env : Env) (s : RunState) (idx : Nat) (row : Row) : RunState :=
  processRowBody env { s with processed := s.processed + 1 } idx row

/-- The loop over the data rows. -/
def runGo (env : Env) : RunState → Nat → List Row → RunState
  | s, _, [] => s
  | s, idx, r :: rs => runGo env (processRow env s idx r) (idx + 1) rs

/-- `existing_keys` as loaded from the remote `time_periods` rows before the
loop (each remote row's `(user_id, work_date, start_time)` through `_dup_key`). -/
def initState (remote : List (String × String × Option String)) : RunState :=
  ⟨remote.filterMap (fun x => dup_key x.1 x.2.1 x.2.2), [], [], [], [], 0, 0⟩

/-- One whole non-diagnose import run. -/
def runImport (env : Env) (remote : List (String × String × Option String))
    (rows : List Row) : RunState :=
  runGo env (initState remote) 0 rows

/-- Environment for the C4 counterexample: the first insert raises, the rest
succeed. -/
def exEnv : Env :=
  ⟨fun n => if n == "Bland, David" then some "u1" else none,
   none,
   fun i => if i == 0 then .raise "boom" else .ok⟩

/-- A valid data row, repeated twice in the counterexample run. -/
def exRow : Row := ⟨9, some "Bland, David", some "2026-01-05", 480, some 480, some 1020, 0⟩

/-- The normalized key of `exRow`. -/
def exKey : DKey := ("u1", "2026-01-05", "2026-01-05T08:00:00Z")

/-- C4 counterexample: two identical rows; the first insert raises an
exception, so its key is never recorded, and the second row attempts the
insert again - two `time_periods` inserts are attempted for the same
normalized key, contradicting claim C4 as stated. -/
theorem C4_counterexample :
    (runImport exEnv [] [exRow, exRow]).attempts
        = [(0, some exKey), (1, some exKey)] ∧
    ¬ ((runImport exEnv [] [exRow, exRow]).attempts.countP
        (fun a => a.2 == some exKey) ≤ 1) := by decide

theorem processRowBody_shape (env : Env) (s : RunState) (idx : Nat) (row : Row) :
    processRowBody env s idx row = s ∨
    processRowBody env s idx row = { s with skippedDup := s.skippedDup + 1 } ∨
    ∃ dupK, processRowBody env s idx row = attemptInsert env s idx row dupK ∧
      ∀ k, dupK = some k → k ∉ s.existingKeys := by
  unfold processRowBody
  by_cases h1 : row.width < 9
  · rw [if_pos h1]
    exact Or.inl rfl
  rw [if_neg h1]
  by_cases h2 : is_site_placeholder row.employee = true
  · rw [if_pos h2]
    exact Or.inl rfl
  rw [if_neg h2]
  cases hres : resolve_user_id env.usersSetup row.employee with
  | none => exact Or.inl rfl
  | some uid =>
    dsimp only
    by_cases h3 : notSelected env row = true
    · rw [if_pos h3]
      exact Or.inl rfl
    rw [if_neg h3]
    cases hwd : row.workDate with
    | none => exact Or.inl rfl
    | some wd =>
      dsimp only
      by_cases h4 : row.hoursMin ≤ 0
      · rw [if_pos h4]
        exact Or.inl rfl
      rw [if_neg h4]
      cases hdk : dup_key uid wd (start_time_iso wd row.startT) with
      | none =>
        refine Or.inr (Or.inr ⟨none, rfl, ?_⟩)
        intro k hk
        cases hk
      | some k =>
        dsimp only
        by_cases h5 : s.existingKeys.contains k = true
        · rw [if_pos h5]
          exact Or.inr (Or.inl rfl)
        · rw [if_neg h5]
          refine Or.inr (Or.inr ⟨some k, rfl, ?_⟩)
          intro k2 hk2 hc
          injection hk2 with hk2
          subst hk2
          exact h5 (by simpa using hc)

theorem attemptInsert_processed (env : Env) (s : RunState) (idx : Nat) (row : Row)
    (dupK : Option DKey) : (attemptInsert env s idx row dupK).processed = s.processed := by
  unfold attemptInsert
  cases env.oracle idx <;> rfl

theorem processRow_processed (env : Env) (s : RunState) (idx : Nat) (row : Row) :
    (processRow env s idx row).processed = s.processed + 1 := by
  unfold processRow
  rcases processRowBody_shape env { s with processed := s.processed + 1 } idx row with
    h | h | ⟨dupK, h, _⟩
  · rw [h]
  · rw [h]
  · rw [h, attemptInsert_processed]

theorem runGo_processed (env : Env) :
    ∀ (rows : List Row) (s : RunState) (idx : Nat),
    (runGo env s idx rows).processed = s.processed + rows.length := by
  intro rows
  induction rows with
  | nil => intro s idx; simp [runGo]
  | cons r rs ih =>
    intro s idx
    show (runGo env (processRow env s idx r) (idx + 1) rs).processed = _
    rw [ih, processRow_processed, List.length_cons]
    omega

theorem attemptInsert_okInserts_mono (env : Env) (s : RunState) (idx : Nat)
    (row : Row) (dupK : Option DKey) :
    s.okInserts <+: (attemptInsert env s idx row dupK).okInserts := by
  unfold attemptInsert
  cases env.oracle idx with
  | raise msg => exact List.prefix_refl _
  | okNoData => exact List.prefix_refl _
  | ok => exact List.prefix_append _ _

theorem processRow_okInserts_mono (env : Env) (s : RunState) (idx : Nat) (row : Row) :
    s.okInserts <+: (processRow env s idx row).okInserts := by
  unfold processRow
  rcases processRowBody_shape env { s with processed := s.processed + 1 } idx row with
    h | h | ⟨dupK, h, _⟩
  · rw [h]
  · rw [h]
  · rw [h]
    exact attemptInsert_okInserts_mono env { s with processed := s.processed + 1 } idx row dupK

theorem runGo_okInserts_mono (env : Env) :
    ∀ (rows : List Row) (s : RunState) (idx : Nat),
    s.okInserts <+: (runGo env s idx rows).okInserts := by
  intro rows
  induction rows with
  | nil => intro s idx; exact List.prefix_refl _
  | cons r rs ih =>
    intro s idx
    exact (processRow_okInserts_mono env s idx r).trans (ih _ _)

theorem runGo_append (env : Env) :
    ∀ (l1 : List Row) (s : RunState) (idx : Nat) (l2 : List Row),
    runGo env s idx (l1 ++ l2) = runGo env (runGo env s idx l1) (idx + l1.length) l2 := by
  intro l1
  induction l1 with
  | nil => intro s idx l2; simp [runGo]
  | cons r l1 ih =>
    intro s idx l2
    show runGo env (processRow env s idx r) (idx + 1) (l1 ++ l2) = _
    rw [ih]
    have heq : idx + 1 + l1.length = idx + (r :: l1).length := by
      simp [List.length_cons]
      omega
    rw [heq]
    rfl

theorem runGo_inv (env : Env) (P : RunState → Nat → Prop)
    (hstep : ∀ s idx row, P s idx → P (processRow env s idx row) (idx + 1)) :
    ∀ (rows : List Row) (s : RunState) (idx : Nat), P s idx →
      P (runGo env s idx rows) (idx + rows.length) := by
  intro rows
  induction rows with
  | nil => intro s idx h; simpa using h
  | cons r rs ih =>
    intro s idx h
    show P (runGo env (processRow env s idx r) (idx + 1) rs) _
    have h2 := ih (processRow env s idx r) (idx + 1) (hstep s idx r h)
    have heq : idx + 1 + rs.length = idx + (r :: rs).length := by
      simp [List.length_cons]
      omega
    rw [heq] at h2
    exact h2

theorem countP_snoc_true {p : Nat × Option DKey → Bool} (l : List (Nat × Option DKey))
    {x : Nat × Option DKey} (hx : p x = true) :
    (l ++ [x]).countP p = l.countP p + 1 := by
  rw [List.countP_append]
  simp [List.countP_cons, hx]

theorem countP_snoc_false {p : Nat × Option DKey → Bool} (l : List (Nat × Option DKey))
    {x : Nat × Option DKey} (hx : p x = false) :
    (l ++ [x]).countP p = l.countP p := by
  rw [List.countP_append]
  simp [List.countP_cons, hx]

theorem attemptInsert_attempts (env : Env) (s : RunState) (idx : Nat) (row : Row)
    (dupK : Option DKey) :
    (attemptInsert env s idx row dupK).attempts = s.attempts ++ [(idx, dupK)] := by
  unfold attemptInsert
  cases env.oracle idx <;> rfl

theorem attemptInsert_keys_or (env : Env) (s : RunState) (idx : Nat) (row : Row)
    (dupK : Option DKey) :
    ((attemptInsert env s idx row dupK).okInserts = s.okInserts ∧
        (attemptInsert env s idx row dupK).existingKeys = s.existingKeys) ∨
      ((attemptInsert env s idx row dupK).okInserts = s.okInserts ++ [(idx, dupK)] ∧
        ((dupK = none ∧ (attemptInsert env s idx row dupK).existingKeys = s.existingKeys) ∨
         (∃ k, dupK = some k ∧
           (attemptInsert env s idx row dupK).existingKeys = s.existingKeys ++ [k]))) := by
  unfold attemptInsert
  cases env.oracle idx with
  | raise msg => exact Or.inl ⟨rfl, rfl⟩
  | okNoData => exact Or.inl ⟨rfl, rfl⟩
  | ok =>
    refine Or.inr ⟨rfl, ?_⟩
    cases dupK with
    | none => exact Or.inl ⟨rfl, rfl⟩
    | some k => exact Or.inr ⟨k, rfl, rfl⟩

theorem attemptInsert_ok_keys (env : Env) (s : RunState) (idx : Nat) (row : Row)
    (dupK : Option DKey) (horc : env.oracle idx = InsertRes.ok) :
    (dupK = none ∧ (attemptInsert env s idx row dupK).existingKeys = s.existingKeys) ∨
    (∃ k, dupK = some k ∧
      (attemptInsert env s idx row dupK).existingKeys = s.existingKeys ++ [k]) := by
  unfold attemptInsert
  rw [horc]
  cases dupK with
  | none => exact Or.inl ⟨rfl, rfl⟩
  | some k => exact Or.inr ⟨k, rfl, rfl⟩

/-- C4 (amended): per normalized `(user_id, work_date, start_time)` key, at most
one row of a run is successfully inserted; a row whose key matches a remote
row loaded at the start of the run is never attempted; and when no insert
attempt fails, at most one insert is attempted per key (a failed attempt does
not record its key, so only then can a later row with the same key retry). -/
theorem C4_dedupe_amended (env : Env) (remote : List (String × String × Option String))
    (rows : List Row) :
    (∀ k : DKey, (runImport env remote rows).okInserts.countP
        (fun a => a.2 == some k) ≤ 1) ∧
    (∀ k ∈ (initState remote).existingKeys,
      (runImport env remote rows).attempts.countP (fun a => a.2 == some k) = 0) ∧
    ((∀ i, env.oracle i = InsertRes.ok) →
      ∀ k : DKey, (runImport env remote rows).attempts.countP
        (fun a => a.2 == some k) ≤ 1) := by
  have hmain : ∀ k : DKey,
      (runImport env remote rows).okInserts.countP (fun a => a.2 == some k) ≤ 1 ∧
      (0 < (runImport env remote rows).okInserts.countP (fun a => a.2 == some k) →
        k ∈ (runImport env remote rows).existingKeys) ∧
      ((initState remote).existingKeys ⊆ (runImport env remote rows).existingKeys) ∧
      (k ∈ (initState remote).existingKeys →
        (runImport env remote rows).attempts.countP (fun a => a.2 == some k) = 0) := by
    have := runGo_inv env (fun s _ => ∀ k : DKey,
      (s.okInserts.countP (fun a => a.2 == some k) ≤ 1) ∧
      (0 < s.okInserts.countP (fun a => a.2 == some k) → k ∈ s.existingKeys) ∧
      ((initState remote).existingKeys ⊆ s.existingKeys) ∧
      (k ∈ (initState remote).existingKeys →
        s.attempts.countP (fun a => a.2 == some k) = 0))
      ?step rows (initState remote) 0 ?init
    · exact this
    case init =>
      intro k
      exact ⟨by simp [initState], by simp [initState], fun a ha => ha, by simp [initState]⟩
    case step =>
      intro s idx row hP
      unfold processRow
      rcases processRowBody_shape env { s with processed := s.processed + 1 } idx row with
        h | h | ⟨dupK, h, hnew⟩
      · rw [h]
        exact hP
      · rw [h]
        exact hP
      · rw [h]
        intro k
        obtain ⟨hc1, hc2, hc3, hc4⟩ := hP k
        have hatt := attemptInsert_attempts env { s with processed := s.processed + 1 }
          idx row dupK
        by_cases hdk : dupK = some k
        · have hpred : ((fun a : Nat × Option DKey => a.2 == some k) (idx, dupK)) = true := by
            show (dupK == some k) = true
            rw [hdk]
            simp
          have hnotin : k ∉ s.existingKeys := hnew k hdk
          have hkinit : k ∉ (initState remote).existingKeys := fun hc => hnotin (hc3 hc)
          have hcnt0 : s.okInserts.countP (fun a => a.2 == some k) = 0 := by
            by_contra hne
            exact hnotin (hc2 (by omega))
          rcases attemptInsert_keys_or env { s with processed := s.processed + 1 }
              idx row dupK with ⟨hok, hkeys⟩ | ⟨hok, hkor⟩
          · refine ⟨by rw [hok]; exact hc1, by rw [hok, hkeys]; exact hc2,
              by rw [hkeys]; exact hc3, fun hc => absurd hc hkinit⟩
          · rcases hkor with ⟨hnone, _⟩ | ⟨k2, hk2, hkeys⟩
            · rw [hnone] at hdk
              cases hdk
            · rw [hk2] at hdk
              injection hdk with hdk
              subst hdk
              refine ⟨?_, ?_, ?_, fun hc => absurd hc hkinit⟩
              · rw [hok, countP_snoc_true _ hpred, hcnt0]
              · intro _
                rw [hkeys]
                exact List.mem_append_right _ (List.mem_cons_self _ _)
              · intro a ha
                rw [hkeys]
                exact List.mem_append_left _ (hc3 ha)
        · have hpred : ((fun a : Nat × Option DKey => a.2 == some k) (idx, dupK)) = false := by
            show (dupK == some k) = false
            cases hb : (dupK == some k)
            · rfl
            · exact absurd (eq_of_beq hb) hdk
          have hkeysup : s.existingKeys ⊆ (attemptInsert env
              { s with processed := s.processed + 1 } idx row dupK).existingKeys := by
            rcases attemptInsert_keys_or env { s with processed := s.processed + 1 }
                idx row dupK with ⟨_, hkeys⟩ | ⟨_, hkor⟩
            · rw [hkeys]
              exact fun a ha => ha
            · rcases hkor with ⟨_, hkeys⟩ | ⟨k2, _, hkeys⟩
              · rw [hkeys]
                exact fun a ha => ha
              · rw [hkeys]
                exact fun a ha => List.mem_append_left _ ha
          have hokc : (attemptInsert env { s with processed := s.processed + 1 }
              idx row dupK).okInserts.countP (fun a => a.2 == some k) =
              s.okInserts.countP (fun a => a.2 == some k) := by
            rcases attemptInsert_keys_or env { s with processed := s.processed + 1 }
                idx row dupK with ⟨hok, _⟩ | ⟨hok, _⟩
            · rw [hok]
            · rw [hok, countP_snoc_false _ hpred]
          refine ⟨by rw [hokc]; exact hc1, fun hpos => hkeysup (hc2 (by rwa [hokc] at hpos)),
            fun a ha => hkeysup (hc3 ha), ?_⟩
          intro hkin
          rw [hatt, countP_snoc_false _ hpred]
          exact hc4 hkin
  refine ⟨fun k => (hmain k).1, fun k hk => (hmain k).2.2.2 hk, ?_⟩
  intro horacle k
  have hQ : ∀ k : DKey,
      (runImport env remote rows).attempts.countP (fun a => a.2 == some k) ≤ 1 ∧
      (0 < (runImport env remote rows).attempts.countP (fun a => a.2 == some k) →
        k ∈ (runImport env remote rows).existingKeys) := by
    have := runGo_inv env (fun s _ => ∀ k : DKey,
      (s.attempts.countP (fun a => a.2 == some k) ≤ 1) ∧
      (0 < s.attempts.countP (fun a => a.2 == some k) → k ∈ s.existingKeys))
      ?step rows (initState remote) 0 ?init
    · exact this
    case init =>
      intro k
      exact ⟨by simp [initState], by simp [initState]⟩
    case step =>
      intro s idx row hP
      unfold processRow
      rcases processRowBody_shape env { s with processed := s.processed + 1 } idx row with
        h | h | ⟨dupK, h, hnew⟩
      · rw [h]
        exact hP
      · rw [h]
        exact hP
      · rw [h]
        intro k
        obtain ⟨hc1, hc2⟩ := hP k
        have hatt := attemptInsert_attempts env { s with processed := s.processed + 1 }
          idx row dupK
        rcases attemptInsert_ok_keys env { s with processed := s.processed + 1 }
            idx row dupK (horacle idx) with ⟨hnone, hkeys⟩ | ⟨k2, hk2, hkeys⟩
        · have hpred : ((fun a : Nat × Option DKey => a.2 == some k) (idx, dupK)) = false := by
            show (dupK == some k) = false
            rw [hnone]
            rfl
          refine ⟨?_, ?_⟩
          · rw [hatt, countP_snoc_false _ hpred]
            exact hc1
          · intro hpos
            rw [hatt, countP_snoc_false _ hpred] at hpos
            rw [hkeys]
            exact hc2 hpos
        · by_cases hkk : k2 = k
          · subst hkk
            have hpred : ((fun a : Nat × Option DKey => a.2 == some k2) (idx, dupK)) = true := by
              show (dupK == some k2) = true
              rw [hk2]
              simp
            have hnotin : k2 ∉ s.existingKeys := hnew k2 hk2
            have hcnt0 : s.attempts.countP (fun a => a.2 == some k2) = 0 := by
              by_contra hne
              exact hnotin (hc2 (by omega))
            refine ⟨?_, ?_⟩
            · rw [hatt, countP_snoc_true _ hpred, hcnt0]
            · intro _
              rw [hkeys]
              exact List.mem_append_right _ (List.mem_cons_self _ _)
          · have hpred : ((fun a : Nat × Option DKey => a.2 == some k) (idx, dupK)) = false := by
              show (dupK == some k) = false
              rw [hk2]
              cases hb : ((some k2 : Option DKey) == some k)
              · rfl
              · have := eq_of_beq hb
                injection this with this
                exact absurd this hkk
            refine ⟨?_, ?_⟩
            · rw [hatt, countP_snoc_false _ hpred]
              exact hc1
            · intro hpos
              rw [hatt, countP_snoc_false _ hpred] at hpos
              rw [hkeys]
              exact List.mem_append_left _ (hc2 hpos)
  exact (hQ k).1

/-- Witness for `C4_dedupe_amended` at a concrete run. -/
theorem C4_witness :
    (runImport exEnv [] [exRow, exRow]).okInserts.countP
        (fun a => a.2 == some exKey) ≤ 1 ∧
    ((∀ i, exEnv.oracle i = InsertRes.ok) →
      (runImport exEnv [] [exRow, exRow]).attempts.countP
        (fun a => a.2 == some exKey) ≤ 1) := by
  have h := C4_dedupe_amended exEnv [] [exRow, exRow]
  exact ⟨h.1 exKey, fun hall => h.2.2 hall exKey⟩

theorem attemptInsert_errors_cases (env : Env) (s : RunState) (idx : Nat) (row : Row)
    (dupK : Option DKey) :
    (∃ msg, env.oracle idx = InsertRes.raise msg ∧
      (attemptInsert env s idx row dupK).errors = s.errors ++ [(idx, msg)]) ∨
    (env.oracle idx = InsertRes.okNoData ∧
      (attemptInsert env s idx row dupK).errors
        = s.errors ++ [(idx, "insert returned no data")]) ∨
    (env.oracle idx = InsertRes.ok ∧
      (attemptInsert env s idx row dupK).errors = s.errors) := by
  unfold attemptInsert
  cases horc : env.oracle idx with
  | raise msg => exact Or.inl ⟨msg, rfl, rfl⟩
  | okNoData => exact Or.inr (Or.inl ⟨rfl, rfl⟩)
  | ok => exact Or.inr (Or.inr ⟨rfl, rfl⟩)

/-- C7: an exception raised by one row's insert is caught, its message is
recorded against that row, and the run continues: every data row is processed
(the loop runs to the end), each row's insert is attempted at most once (no
retry), and the successful inserts of any initial segment of the rows are a
prefix of the run's successful inserts - later failures never undo them. -/
theorem C7_error_handling (env : Env) (remote : List (String × String × Option String))
    (rows : List Row) :
    (runImport env remote rows).processed = rows.length ∧
    (∀ i k msg, (i, k) ∈ (runImport env remote rows).attempts →
      env.oracle i = InsertRes.raise msg →
      (i, msg) ∈ (runImport env remote rows).errors) ∧
    (∀ i, (runImport env remote rows).attempts.countP (fun a => a.1 == i) ≤ 1) ∧
    (∀ l1 l2, rows = l1 ++ l2 →
      (runImport env remote l1).okInserts <+: (runImport env remote rows).okInserts) := by
  refine ⟨?_, ?_, ?_, ?_⟩
  · rw [runImport, runGo_processed]
    simp [initState]
  · have := runGo_inv env (fun s _ =>
      ∀ i k msg, (i, k) ∈ s.attempts → env.oracle i = InsertRes.raise msg →
        (i, msg) ∈ s.errors)
      ?step rows (initState remote) 0 ?init
    · exact this
    case init =>
      intro i k msg hmem
      simp [initState] at hmem
    case step =>
      intro s idx row hP
      unfold processRow
      rcases processRowBody_shape env { s with processed := s.processed + 1 } idx row with
        h | h | ⟨dupK, h, _⟩
      · rw [h]
        exact hP
      · rw [h]
        exact hP
      · rw [h]
        intro i k msg hmem hraise
        rw [attemptInsert_attempts] at hmem
        rcases attemptInsert_errors_cases env { s with processed := s.processed + 1 }
            idx row dupK with ⟨m, horc, herr⟩ | ⟨horc, herr⟩ | ⟨horc, herr⟩
        · rw [herr]
          rcases List.mem_append.mp hmem with hold | hnewm
          · exact List.mem_append_left _ (hP i k msg hold hraise)
          · rw [List.mem_singleton] at hnewm
            injection hnewm with hi hk
            subst hi
            rw [hraise] at horc
            injection horc with hm
            subst hm
            exact List.mem_append_right _ (List.mem_cons_self _ _)
        · rw [herr]
          rcases List.mem_append.mp hmem with hold | hnewm
          · exact List.mem_append_left _ (hP i k msg hold hraise)
          · rw [List.mem_singleton] at hnewm
            injection hnewm with hi hk
            subst hi
            rw [hraise] at horc
            cases horc
        · rw [herr]
          rcases List.mem_append.mp hmem with hold | hnewm
          · exact hP i k msg hold hraise
          · rw [List.mem_singleton] at hnewm
            injection hnewm with hi hk
            subst hi
            rw [hraise] at horc
            cases horc
  · have := runGo_inv env (fun s idx =>
      (∀ a ∈ s.attempts, a.1 < idx) ∧
      (∀ i, s.attempts.countP (fun a => a.1 == i) ≤ 1))
      ?step rows (initState remote) 0 ?init
    · exact fun i => this.2 i
    case init =>
      constructor
      · intro a ha
        simp [initState] at ha
      · intro i
        simp [initState]
    case step =>
      intro s idx row hP
      unfold processRow
      rcases processRowBody_shape env { s with processed := s.processed + 1 } idx row with
        h | h | ⟨dupK, h, _⟩
      · rw [h]
        exact ⟨fun a ha => Nat.lt_succ_of_lt (hP.1 a ha), hP.2⟩
      · rw [h]
        exact ⟨fun a ha => Nat.lt_succ_of_lt (hP.1 a ha), hP.2⟩
      · rw [h]
        have hatt := attemptInsert_attempts env { s with processed := s.processed + 1 }
          idx row dupK
        constructor
        · intro a ha
          rw [hatt] at ha
          rcases List.mem_append.mp ha with hold | hnewm
          · exact Nat.lt_succ_of_lt (hP.1 a hold)
          · rw [List.mem_singleton] at hnewm
            rw [hnewm]
            exact Nat.lt_succ_self idx
        · intro i
          by_cases hi : i = idx
          · subst hi
            have hpred : ((fun a : Nat × Option DKey => a.1 == i) (i, dupK)) = true := by
              show (i == i) = true
              simp
            have hcnt0 : s.attempts.countP (fun a => a.1 == i) = 0 := by
              rcases Nat.eq_zero_or_pos (s.attempts.countP (fun a => a.1 == i)) with hz | hpos
              · exact hz
              · obtain ⟨a, hamem, hai⟩ := List.countP_pos_iff.mp hpos
                have hai2 : a.1 = i := by simpa using hai
                exact absurd hai2 (Nat.ne_of_lt (hP.1 a hamem))
            rw [hatt, countP_snoc_true _ hpred, hcnt0]
          · have hpred : ((fun a : Nat × Option DKey => a.1 == i) (idx, dupK)) = false := by
              show (idx == i) = false
              cases hb : (idx == i)
              · rfl
              · exact absurd (eq_of_beq hb).symm hi
            rw [hatt, countP_snoc_false _ hpred]
            exact hP.2 i
  · intro l1 l2 hrows
    subst hrows
    rw [runImport, runImport, runGo_append, Nat.zero_add]
    exact runGo_okInserts_mono env l2 _ _

/-- Witness for `C7_error_handling` at a concrete failing run. -/
theorem C7_witness :
    (runImport exEnv [] [exRow, exRow]).processed = 2 ∧
    (0, "boom") ∈ (runImport exEnv [] [exRow, exRow]).errors := by
  have h := C7_error_handling exEnv [] [exRow, exRow]
  exact ⟨h.1, h.2.1 0 (some exKey) "boom" (by decide) (by decide)⟩

end Payroll

